import Mathlib

/-!
# Verification of the `l2metrics` metrics-computation engine

Shallow embedding, over `ℚ`, of the core statistical transforms of the
`l2metrics` repository and proofs of the specification's claims about them.

Embedded source functions (names kept where Lean allows):

* `smooth`, `get_block_saturation_perf`, `get_terminal_perf`,
  `fill_metrics_df` from `src/l2metrics/_localutil.py`;
* `PerfMaintenanceANT.calculate` from `src/l2metrics/agent.py`
  (as `perfMaintenanceCalc`);
* `SampleEfficiency.validate` and the `'metrics'` averaging branch of
  `SampleEfficiency.calculate` from `src/l2metrics/sample_efficiency.py`.

Modelling conventions:

* numeric series are `List ℚ` (the sources use numpy float arrays; every
  property proved here is about index arithmetic, control flow and exact
  rational identities, none about floating-point rounding);
* a data frame of episode rows, as consumed by the block statistics
  extractor, is a `List (ℤ × ℚ)` of `(exp_num, performance value)` pairs:
  `data.loc[:, ['exp_num', col_to_use]]` keeps exactly those two columns;
* Python `None` parameters are `Option` arguments, and a raised exception
  is an `Except.error`;
* the numpy taper windows `np.hanning` / `np.hamming` / `np.bartlett` /
  `np.blackman` reached through `eval('np.' + window + '(window_len)')`
  are library calls, not repository code; they are a parameter
  `taper : String → ℕ → List ℚ` of the embedding, constrained in theorems
  only by numpy's documented contract that `np.<window>(M)` returns a
  window of `M` points.  The flat window (`np.ones`), the only one the
  repository's own callers use, is embedded concretely.
-/

/-- `int(x.size * 0.2)` in `smooth`.  For every natural `n`, the Python
float expression `int(n * 0.2)` truncates to `⌊n / 5⌋` (0.2 rounds up as a
double, so `n * 0.2` never rounds below an integer it should reach), which
is Nat division. -/
def intTimesPointTwo (n : ℕ) : ℕ := n / 5

/-- Window-length resolution of `smooth` (`_localutil.py` lines 52-54):
when `window_len` is `None` or larger than the series, it becomes
`min(int(x.size * 0.2), 100)`. -/
def resolveWindowLen (n : ℕ) (window_len : Option ℕ) : ℕ :=
  match window_len with
  | none => min (intTimesPointTwo n) 100
  | some l => if n < l then min (intTimesPointTwo n) 100 else l

/-- The five accepted window kinds (`_localutil.py` line 59). -/
def validWindows : List String :=
  ["flat", "hanning", "hamming", "bartlett", "blackman"]

/-- Error message of the `ValueError` raised for a bad window kind
(the spec's `InvalidWindowError`). -/
def invalidWindowMsg : String :=
  "Window is one of 'flat', 'hanning', 'hamming', 'bartlett', 'blackman'"

/-- `np.r_[x[window_len - 1:0:-1], x, x[-2:-window_len - 1:-1]]`
(`_localutil.py` line 62): the series with `window_len - 1` reflected
samples prepended and appended. -/
def reflectPad (x : List ℚ) (w : ℕ) : List ℚ :=
  ((x.drop 1).take (w - 1)).reverse ++ x ++
    ((x.drop (x.length - w)).take (w - 1)).reverse

/-- `np.convolve(a, v, mode='valid')` for `a.length ≤ v.length`:
`out[k] = Σ_j a[j] * v[k + a.length - 1 - j]`. -/
def convolveValid (a v : List ℚ) : List ℚ :=
  (List.range (v.length + 1 - a.length)).map fun k =>
    ((List.range a.length).map fun j =>
      a.getD j 0 * v.getD (k + a.length - 1 - j) 0).sum

/-- `w / w.sum()` (`_localutil.py` line 69). -/
def normalizeKernel (kern : List ℚ) : List ℚ := kern.map (· / kern.sum)

/-- The convolution pipeline of `smooth` for a resolved window length
`w ≥ 3` (`_localutil.py` lines 62-74): reflect-pad, convolve with the
normalized kernel, then slice
`y[int(np.floor(w/2 - 1)) : -int(np.ceil(w/2))]` back to the input
length. -/
def smoothPipeline (taper : String → ℕ → List ℚ) (x : List ℚ) (w : ℕ)
    (window : String) : List ℚ :=
  let s := reflectPad x w
  let kern := if window == "flat" then List.replicate w (1 : ℚ) else taper window w
  let y := convolveValid (normalizeKernel kern) s
  (y.drop (w / 2 - 1)).take (y.length - (w + 1) / 2 - (w / 2 - 1))

/-- `smooth(x, window_len, window)` (`_localutil.py` lines 49-74).
The 1-D check (line 49) is vacuous for a `List` input.  Note the source
order: the window-length resolution and the `< 3` early return come
*before* the window-kind validation. -/
def smooth (taper : String → ℕ → List ℚ) (x : List ℚ)
    (window_len : Option ℕ) (window : String) : Except String (List ℚ) :=
  let w := resolveWindowLen x.length window_len
  if w < 3 then .ok x
  else if window ∈ validWindows then .ok (smoothPipeline taper x w window)
  else .error invalidWindowMsg

/-- Total version of `smooth` for callers that pass a valid window kind
(the repository's own callers always pass `'flat'`); agrees with `smooth`
by `smooth_eq_ok_smoothTotal`. -/
def smoothTotal (taper : String → ℕ → List ℚ) (x : List ℚ)
    (window_len : Option ℕ) (window : String) : List ℚ :=
  let w := resolveWindowLen x.length window_len
  if w < 3 then x else smoothPipeline taper x w window

theorem smooth_eq_ok_smoothTotal (taper : String → ℕ → List ℚ) (x : List ℚ)
    (window_len : Option ℕ) (window : String) (h : window ∈ validWindows) :
    smooth taper x window_len window = .ok (smoothTotal taper x window_len window) := by
  unfold smooth smoothTotal
  by_cases h3 : resolveWindowLen x.length window_len < 3 <;> simp [h3, h]

/-- The flat window never consults the taper parameter. -/
theorem smoothTotal_flat_taper_irrel (t₁ t₂ : String → ℕ → List ℚ)
    (x : List ℚ) (window_len : Option ℕ) :
    smoothTotal t₁ x window_len "flat" = smoothTotal t₂ x window_len "flat" := by
  unfold smoothTotal smoothPipeline
  simp

/-- A fixed taper instance used when embedding the repository's callers of
`smooth`: they all pass `window='flat'`, which never reaches the taper
(`smoothTotal_flat_taper_irrel`), so the choice is irrelevant. -/
def anyTaper : String → ℕ → List ℚ := fun _ M => List.replicate M 1

section LengthFacts

theorem convolveValid_length (a v : List ℚ) :
    (convolveValid a v).length = v.length + 1 - a.length := by
  simp [convolveValid]

theorem normalizeKernel_length (kern : List ℚ) :
    (normalizeKernel kern).length = kern.length := by
  simp [normalizeKernel]

theorem reflectPad_length (x : List ℚ) (w : ℕ) (h3 : 3 ≤ w) (hw : w ≤ x.length) :
    (reflectPad x w).length = x.length + 2 * w - 2 := by
  simp only [reflectPad, List.length_append, List.length_reverse, List.length_take,
    List.length_drop]
  omega

theorem smoothPipeline_length (taper : String → ℕ → List ℚ) (x : List ℚ) (w : ℕ)
    (window : String) (h3 : 3 ≤ w) (hw : w ≤ x.length)
    (htaper : (taper window w).length = w) :
    (smoothPipeline taper x w window).length = x.length := by
  unfold smoothPipeline
  have hkern : (if window == "flat" then List.replicate w (1 : ℚ)
      else taper window w).length = w := by
    by_cases hf : window == "flat" <;> simp [hf, htaper]
  have hy : (convolveValid
      (normalizeKernel (if window == "flat" then List.replicate w (1 : ℚ)
        else taper window w)) (reflectPad x w)).length = x.length + w - 1 := by
    rw [convolveValid_length, normalizeKernel_length, hkern,
      reflectPad_length x w h3 hw]
    omega
  simp only [List.length_take, List.length_drop, hy]
  omega

theorem resolveWindowLen_le (n : ℕ) (window_len : Option ℕ) :
    resolveWindowLen n window_len ≤ n := by
  unfold resolveWindowLen intTimesPointTwo
  match window_len with
  | none => simp; omega
  | some l =>
    by_cases h : n < l <;> simp [h] <;> omega

end LengthFacts

/-- C1: for every taper family satisfying numpy's length contract, every
series of length at least 3 and every valid window kind, `smooth` succeeds
and preserves the length, whether `window_len` is given or unset. -/
theorem smooth_preserves_length (taper : String → ℕ → List ℚ)
    (htaper : ∀ s M, (taper s M).length = M)
    (x : List ℚ) (window_len : Option ℕ) (window : String)
    (hlen : 3 ≤ x.length) (hwin : window ∈ validWindows) :
    ∃ y, smooth taper x window_len window = .ok y ∧ y.length = x.length := by
  rw [smooth_eq_ok_smoothTotal taper x window_len window hwin]
  refine ⟨smoothTotal taper x window_len window, rfl, ?_⟩
  unfold smoothTotal
  by_cases h3 : resolveWindowLen x.length window_len < 3
  · simp [h3]
  · simp only [h3, if_false]
    exact smoothPipeline_length taper x _ window (by omega)
      (resolveWindowLen_le x.length window_len) (htaper window _)

/-- C1 witness: concrete instance of `smooth_preserves_length`. -/
theorem smooth_preserves_length_witness :
    ∃ y, smooth anyTaper [(0 : ℚ), 1, 2] none "hanning" = .ok y ∧
      y.length = ([(0 : ℚ), 1, 2] : List ℚ).length :=
  smooth_preserves_length anyTaper (fun _ M => by simp [anyTaper])
    [(0 : ℚ), 1, 2] none "hanning" (by decide) (by decide)

/-- C8: whenever the resolved window length is below 3 (an explicitly
given short window, or the adaptive default on a short series), `smooth`
returns the input unchanged, for every window kind. -/
theorem smooth_identity_below_three (taper : String → ℕ → List ℚ)
    (x : List ℚ) (window_len : Option ℕ) (window : String)
    (hwin : window ∈ validWindows)
    (h : resolveWindowLen x.length window_len < 3) :
    smooth taper x window_len window = .ok x := by
  unfold smooth
  simp [h]

/-- C8 witness: `smooth(x, window_len=2)` is the identity. -/
theorem smooth_identity_below_three_witness :
    resolveWindowLen ([(5 : ℚ), 7, 6, 8] : List ℚ).length (some 2) < 3 ∧
      smooth anyTaper [(5 : ℚ), 7, 6, 8] (some 2) "hanning" = .ok [(5 : ℚ), 7, 6, 8] :=
  ⟨by decide, smooth_identity_below_three anyTaper [(5 : ℚ), 7, 6, 8] (some 2)
    "hanning" (by decide) (by decide)⟩

/-- C7 counterexample: an invalid window kind does *not* always raise.
With `window_len=2` the resolved window length is below 3 and `smooth`
returns the input unchanged before checking the window kind. -/
theorem smooth_invalid_window_no_error_cex :
    smooth anyTaper [(1 : ℚ), 2, 3, 4] (some 2) "bogus" = .ok [(1 : ℚ), 2, 3, 4] := by
  rfl

/-- C7 amended: for a window kind outside the five accepted values,
`smooth` raises the invalid-window error exactly when the resolved window
length is at least 3; below that it returns the input unchanged, because
the low-data early return precedes the window-kind validation. -/
theorem smooth_invalid_window (taper : String → ℕ → List ℚ) (x : List ℚ)
    (window_len : Option ℕ) (window : String) (hwin : window ∉ validWindows) :
    smooth taper x window_len window =
      if resolveWindowLen x.length window_len < 3 then .ok x
      else .error invalidWindowMsg := by
  unfold smooth
  by_cases h3 : resolveWindowLen x.length window_len < 3 <;> simp [h3, hwin]

/-- C7 witness: concrete instance of `smooth_invalid_window` on a series
long enough that the default window length reaches 3, where the error is
raised. -/
theorem smooth_invalid_window_witness :
    "bogus" ∉ validWindows ∧
      smooth anyTaper (List.replicate 20 (1 : ℚ)) none "bogus" =
        if resolveWindowLen (List.replicate 20 (1 : ℚ)).length none < 3 then
          .ok (List.replicate 20 (1 : ℚ))
        else .error invalidWindowMsg :=
  ⟨by decide, smooth_invalid_window anyTaper (List.replicate 20 (1 : ℚ)) none
    "bogus" (by decide)⟩

section ListHelpers

/-- `np.nanmax` on a NaN-free series: the maximum (the source raises on an
empty array; the `[]` case below is never reached under the theorems'
hypotheses). -/
def nanmax : List ℚ → ℚ
  | [] => 0
  | h :: t => t.foldl max h

theorem foldl_max_mem (t : List ℚ) : ∀ a : ℚ, t.foldl max a ∈ a :: t := by
  induction t with
  | nil => intro a; simp [List.foldl]
  | cons b t ih =>
    intro a
    have h := ih (max a b)
    simp only [List.foldl_cons]
    rcases List.mem_cons.1 h with h | h
    · rcases max_choice a b with hm | hm
      · rw [h, hm]; exact List.mem_cons_self _ _
      · rw [h, hm]; exact List.mem_cons_of_mem _ (List.mem_cons_self _ _)
    · exact List.mem_cons_of_mem _ (List.mem_cons_of_mem _ h)

theorem le_foldl_max (t : List ℚ) : ∀ a b : ℚ, b ∈ a :: t → b ≤ t.foldl max a := by
  induction t with
  | nil => intro a b hb; simp at hb; simp [List.foldl, hb]
  | cons c t ih =>
    intro a b hb
    rcases List.mem_cons.1 hb with h | h
    · subst h
      exact le_trans (le_max_left b c) (ih (max b c) (max b c) (by simp))
    · rcases List.mem_cons.1 h with h' | h'
      · subst h'
        exact le_trans (le_max_right a b) (ih (max a b) (max a b) (by simp))
      · exact ih (max a c) b (by simp [h'])

theorem nanmax_mem (l : List ℚ) (h : l ≠ []) : nanmax l ∈ l := by
  match l with
  | [] => exact absurd rfl h
  | a :: t => exact foldl_max_mem t a

theorem le_nanmax (l : List ℚ) (b : ℚ) (hb : b ∈ l) : b ≤ nanmax l := by
  match l with
  | [] => simp at hb
  | a :: t => exact le_foldl_max t a b hb

theorem findIdx_before_false {α : Type} (p : α → Bool) (d : α) :
    ∀ (l : List α) (j : ℕ), j < l.findIdx p → p (l.getD j d) = false := by
  intro l
  induction l with
  | nil => intro j hj; rw [List.findIdx_nil] at hj; omega
  | cons a t ih =>
    intro j hj
    rw [List.findIdx_cons] at hj
    by_cases ha : p a
    · simp [ha] at hj
    · simp only [ha, cond_false] at hj
      match j with
      | 0 => simpa using ha
      | j + 1 => exact ih j (by omega)

theorem findIdx_getD_true {α : Type} (p : α → Bool) (d : α) :
    ∀ l : List α, l.findIdx p < l.length → p (l.getD (l.findIdx p) d) = true := by
  intro l
  induction l with
  | nil => intro h; simp at h
  | cons a t ih =>
    intro h
    rw [List.findIdx_cons]
    by_cases ha : p a
    · simpa [ha] using ha
    · rw [List.findIdx_cons] at h
      simp only [ha, cond_false] at h ⊢
      exact ih (by simpa using h)

theorem findIdx_le_length' {α : Type} (p : α → Bool) (l : List α) :
    l.findIdx p ≤ l.length := by
  induction l with
  | nil => simp [List.findIdx_nil]
  | cons a t ih =>
    rw [List.findIdx_cons]
    by_cases ha : p a <;> simp [ha] <;> omega

theorem findIdx_eq_of_first {α : Type} (p : α → Bool) (d : α) (l : List α) (k : ℕ)
    (hk : k < l.length) (hp : p (l.getD k d) = true)
    (hb : ∀ j, j < k → p (l.getD j d) = false) : l.findIdx p = k := by
  induction l generalizing k with
  | nil => simp at hk
  | cons a t ih =>
    rw [List.findIdx_cons]
    match k with
    | 0 => simp at hp; simp [hp]
    | k + 1 =>
      have ha : p a = false := by simpa using hb 0 (by omega)
      simp only [ha, cond_false]
      have := ih k (by simpa using hk) (by simpa using hp)
        (fun j hj => by simpa using hb (j + 1) (by omega))
      omega

end ListHelpers

section BlockStats

/-- Per-episode means: `data.loc[:, ['exp_num', col]].groupby('exp_num').mean()`
followed by `np.ravel`.  Pandas `groupby` sorts the group keys ascending;
each group's value is the mean of the performance column over the rows
with that `exp_num`. -/
def groupMeans (data : List (ℤ × ℚ)) : List ℚ :=
  (List.insertionSort (· ≤ ·) (data.map Prod.fst).dedup).map fun k =>
    let vs := (data.filter fun r => r.1 == k).map Prod.snd
    vs.sum / vs.length

theorem groupMeans_length_le (data : List (ℤ × ℚ)) :
    (groupMeans data).length ≤ data.length := by
  unfold groupMeans
  rw [List.length_map, (List.perm_insertionSort (· ≤ ·) (data.map Prod.fst).dedup).length_eq]
  calc (data.map Prod.fst).dedup.length ≤ (data.map Prod.fst).length :=
        (List.dedup_sublist _).length_le
    _ = data.length := List.length_map _ _

/-- `np.mean` of a NaN-free series (the source yields NaN on an empty
array; here the `[]` case evaluates to `0/0 = 0` and is never relied on). -/
def pymean (l : List ℚ) : ℚ := l.sum / (l.length : ℚ)

/-- `get_block_saturation_perf(data, col_to_use, prev_sat_val, window_len)`
(`_localutil.py` lines 77-99), returning
`(saturation_value, episodes_to_saturation, episodes_to_recovery)`.
The recovery branch mirrors Python's `if prev_sat_val:`, which is falsy
both for `None` and for `0.0`. -/
def get_block_saturation_perf (data : List (ℤ × ℚ)) (prev_sat_val : Option ℚ)
    (window_len : Option ℕ) : ℚ × ℕ × ℕ :=
  let mean_data := groupMeans data
  let smoothed_data := smoothTotal anyTaper mean_data window_len "flat"
  let saturation_value := nanmax smoothed_data
  let episodes_to_saturation := smoothed_data.findIdx fun u => decide (u = saturation_value)
  let episodes_to_recovery :=
    match prev_sat_val with
    | some v =>
      if v = 0 then data.length + 1
      else
        let k := smoothed_data.findIdx fun u => decide (v ≤ u)
        if k < smoothed_data.length then k else data.length + 1
    | none => data.length + 1
  (saturation_value, episodes_to_saturation, episodes_to_recovery)

/-- `get_terminal_perf(data, col_to_use, prev_val, do_smoothing, window_len,
term_window_ratio)` (`_localutil.py` lines 102-128), returning
`(terminal_value, episodes_to_terminal_perf, episodes_to_recovery)`.
Unlike the saturation variant, the recovery branch mirrors Python's
`if prev_val is not None:`, so a `0.0` prior is looked up. -/
def get_terminal_perf (data : List (ℤ × ℚ)) (prev_val : Option ℚ)
    (do_smoothing : Bool) (window_len : Option ℕ) (term_window_ratio : ℚ) :
    ℚ × ℕ × ℕ :=
  let md := groupMeans data
  let mean_data := if do_smoothing then smoothTotal anyTaper md window_len "flat" else md
  let sz : ℚ := (mean_data.length : ℚ)
  let terminal_value := pymean (mean_data.drop (Int.toNat ⌊(1 - term_window_ratio) * sz⌋))
  let episodes_to_terminal_perf := Int.toNat ⌊(1 - term_window_ratio / 2) * sz⌋
  let episodes_to_recovery :=
    match prev_val with
    | some v =>
      let k := mean_data.findIdx fun u => decide (v ≤ u)
      if k < mean_data.length then k else data.length + 1
    | none => data.length + 1
  (terminal_value, episodes_to_terminal_perf, episodes_to_recovery)

theorem smoothPipeline_flat_taper_irrel (t₁ t₂ : String → ℕ → List ℚ)
    (x : List ℚ) (w : ℕ) :
    smoothPipeline t₁ x w "flat" = smoothPipeline t₂ x w "flat" := by
  unfold smoothPipeline
  simp

theorem smoothTotal_flat_length (taper : String → ℕ → List ℚ) (x : List ℚ)
    (window_len : Option ℕ) :
    (smoothTotal taper x window_len "flat").length = x.length := by
  unfold smoothTotal
  by_cases h3 : resolveWindowLen x.length window_len < 3
  · simp [h3]
  · simp only [h3, if_false]
    rw [smoothPipeline_flat_taper_irrel taper anyTaper]
    exact smoothPipeline_length anyTaper x _ "flat" (by omega)
      (resolveWindowLen_le x.length window_len) (by simp [anyTaper])

end BlockStats

/-- The smoothed per-episode mean series used inside
`get_block_saturation_perf` (and `get_terminal_perf` with smoothing on). -/
def blockSmoothed (data : List (ℤ × ℚ)) (window_len : Option ℕ) : List ℚ :=
  smoothTotal anyTaper (groupMeans data) window_len "flat"

theorem blockSmoothed_length_le (data : List (ℤ × ℚ)) (window_len : Option ℕ) :
    (blockSmoothed data window_len).length ≤ data.length := by
  rw [blockSmoothed, smoothTotal_flat_length]
  exact groupMeans_length_le data

/-- C2 (amended): with a *nonzero* prior saturation value,
`episodes_to_recovery` is the index of the first smoothed value `≥` the
prior, and it is the sentinel `len(data) + 1` exactly when no smoothed
value reaches the prior; with an absent prior, or with prior `0.0`
(falsy in Python, hence treated as absent), it is the sentinel. -/
theorem get_block_saturation_perf_recovery (data : List (ℤ × ℚ))
    (window_len : Option ℕ) (v : ℚ) (hv : v ≠ 0) :
    (((get_block_saturation_perf data (some v) window_len).2.2 = data.length + 1) ↔
        ∀ i, i < (blockSmoothed data window_len).length →
          (blockSmoothed data window_len).getD i 0 < v) ∧
      ((get_block_saturation_perf data (some v) window_len).2.2 ≠ data.length + 1 →
        (get_block_saturation_perf data (some v) window_len).2.2 <
            (blockSmoothed data window_len).length ∧
          v ≤ (blockSmoothed data window_len).getD
              ((get_block_saturation_perf data (some v) window_len).2.2) 0 ∧
          ∀ j, j < (get_block_saturation_perf data (some v) window_len).2.2 →
            (blockSmoothed data window_len).getD j 0 < v) ∧
      (get_block_saturation_perf data none window_len).2.2 = data.length + 1 ∧
      (get_block_saturation_perf data (some 0) window_len).2.2 = data.length + 1 := by
  have hlen : (blockSmoothed data window_len).length ≤ data.length :=
    blockSmoothed_length_le data window_len
  have hr : (get_block_saturation_perf data (some v) window_len).2.2 =
      if (blockSmoothed data window_len).findIdx (fun u => decide (v ≤ u)) <
          (blockSmoothed data window_len).length then
        (blockSmoothed data window_len).findIdx (fun u => decide (v ≤ u))
      else data.length + 1 := by
    simp only [get_block_saturation_perf, blockSmoothed, hv, if_false]
  by_cases hk : (blockSmoothed data window_len).findIdx (fun u => decide (v ≤ u)) <
      (blockSmoothed data window_len).length
  · rw [hr, if_pos hk]
    have hkle : v ≤ (blockSmoothed data window_len).getD
        ((blockSmoothed data window_len).findIdx (fun u => decide (v ≤ u))) 0 :=
      of_decide_eq_true (findIdx_getD_true (fun u => decide (v ≤ u)) 0
        (blockSmoothed data window_len) hk)
    have hbefore : ∀ j, j < (blockSmoothed data window_len).findIdx
        (fun u => decide (v ≤ u)) → (blockSmoothed data window_len).getD j 0 < v := by
      intro j hj
      have hf := findIdx_before_false (fun u => decide (v ≤ u)) 0
        (blockSmoothed data window_len) j hj
      have : ¬ v ≤ (blockSmoothed data window_len).getD j 0 := by
        simp only [decide_eq_false_iff_not] at hf
        exact hf
      exact lt_of_not_le this
    refine ⟨⟨fun h => absurd h (by omega), fun hall => absurd (hall _ hk) (not_lt.2 hkle)⟩,
      fun _ => ⟨hk, hkle, hbefore⟩, by simp [get_block_saturation_perf],
      by simp [get_block_saturation_perf]⟩
  · rw [hr, if_neg hk]
    have hall : ∀ i, i < (blockSmoothed data window_len).length →
        (blockSmoothed data window_len).getD i 0 < v := by
      intro i hi
      have hf := findIdx_before_false (fun u => decide (v ≤ u)) 0
        (blockSmoothed data window_len) i (by omega)
      have : ¬ v ≤ (blockSmoothed data window_len).getD i 0 := by
        simp only [decide_eq_false_iff_not] at hf
        exact hf
      exact lt_of_not_le this
    exact ⟨⟨fun _ => hall, fun _ => rfl⟩, fun hne => absurd rfl hne,
      by simp [get_block_saturation_perf], by simp [get_block_saturation_perf]⟩

/-- C2 witness: instance of `get_block_saturation_perf_recovery` at a
concrete data frame and prior `1`. -/
theorem get_block_saturation_perf_recovery_witness :
    (((get_block_saturation_perf [((0 : ℤ), (1 : ℚ)), (1, 1)] (some 1) none).2.2 =
        [((0 : ℤ), (1 : ℚ)), (1, 1)].length + 1) ↔
      ∀ i, i < (blockSmoothed [((0 : ℤ), (1 : ℚ)), (1, 1)] none).length →
        (blockSmoothed [((0 : ℤ), (1 : ℚ)), (1, 1)] none).getD i 0 < 1) ∧
    ((get_block_saturation_perf [((0 : ℤ), (1 : ℚ)), (1, 1)] (some 1) none).2.2 ≠
        [((0 : ℤ), (1 : ℚ)), (1, 1)].length + 1 →
      (get_block_saturation_perf [((0 : ℤ), (1 : ℚ)), (1, 1)] (some 1) none).2.2 <
          (blockSmoothed [((0 : ℤ), (1 : ℚ)), (1, 1)] none).length ∧
        1 ≤ (blockSmoothed [((0 : ℤ), (1 : ℚ)), (1, 1)] none).getD
            ((get_block_saturation_perf [((0 : ℤ), (1 : ℚ)), (1, 1)] (some 1) none).2.2) 0 ∧
        ∀ j, j < (get_block_saturation_perf [((0 : ℤ), (1 : ℚ)), (1, 1)] (some 1) none).2.2 →
          (blockSmoothed [((0 : ℤ), (1 : ℚ)), (1, 1)] none).getD j 0 < 1) ∧
    (get_block_saturation_perf [((0 : ℤ), (1 : ℚ)), (1, 1)] none none).2.2 =
      [((0 : ℤ), (1 : ℚ)), (1, 1)].length + 1 ∧
    (get_block_saturation_perf [((0 : ℤ), (1 : ℚ)), (1, 1)] (some 0) none).2.2 =
      [((0 : ℤ), (1 : ℚ)), (1, 1)].length + 1 :=
  get_block_saturation_perf_recovery [((0 : ℤ), (1 : ℚ)), (1, 1)] none 1 (by norm_num)

/-- C2 counterexample: with prior saturation `0.0` the first smoothed
value already reaches the prior (index 0), yet `episodes_to_recovery`
is the did-not-recover sentinel `len(data) + 1 = 3`, because `0.0` is
falsy in `if prev_sat_val:`. -/
theorem get_block_saturation_perf_zero_prior_cex :
    (get_block_saturation_perf [((0 : ℤ), (1 : ℚ)), (1, 1)] (some 0) none).2.2 = 3 ∧
      (blockSmoothed [((0 : ℤ), (1 : ℚ)), (1, 1)] none).findIdx
        (fun u => decide ((0 : ℚ) ≤ u)) = 0 ∧
      (blockSmoothed [((0 : ℤ), (1 : ℚ)), (1, 1)] none).length = 2 := by
  have hgm : groupMeans [((0 : ℤ), (1 : ℚ)), (1, 1)] = [1, 1] := by
    norm_num [groupMeans, List.insertionSort, List.orderedInsert, List.dedup]
  have hbs : blockSmoothed [((0 : ℤ), (1 : ℚ)), (1, 1)] none = [1, 1] := by
    rw [blockSmoothed, hgm]
    norm_num [smoothTotal, resolveWindowLen, intTimesPointTwo]
  refine ⟨by simp [get_block_saturation_perf], ?_, by rw [hbs]; rfl⟩
  rw [hbs]
  norm_num [List.findIdx_cons]

/-- C9 (amended): with smoothing enabled and any *nonzero* (or absent)
prior value, `get_terminal_perf` computes `episodes_to_recovery` exactly
as `get_block_saturation_perf` does on the same data, prior and window
length.  (At prior `0.0` the two differ: see the counterexample.) -/
theorem get_terminal_perf_recovery_refines (data : List (ℤ × ℚ))
    (window_len : Option ℕ) (ratio : ℚ) (v : ℚ) (hv : v ≠ 0) :
    (get_terminal_perf data (some v) true window_len ratio).2.2 =
        (get_block_saturation_perf data (some v) window_len).2.2 ∧
      (get_terminal_perf data none true window_len ratio).2.2 =
        (get_block_saturation_perf data none window_len).2.2 := by
  constructor
  · simp only [get_terminal_perf, get_block_saturation_perf, if_true, hv, if_false]
  · simp only [get_terminal_perf, get_block_saturation_perf, if_true]

/-- C9 witness: instance of `get_terminal_perf_recovery_refines`. -/
theorem get_terminal_perf_recovery_refines_witness :
    (get_terminal_perf [((0 : ℤ), (1 : ℚ)), (1, 2)] (some 1) true none (1/10)).2.2 =
        (get_block_saturation_perf [((0 : ℤ), (1 : ℚ)), (1, 2)] (some 1) none).2.2 ∧
      (get_terminal_perf [((0 : ℤ), (1 : ℚ)), (1, 2)] none true none (1/10)).2.2 =
        (get_block_saturation_perf [((0 : ℤ), (1 : ℚ)), (1, 2)] none none).2.2 :=
  get_terminal_perf_recovery_refines [((0 : ℤ), (1 : ℚ)), (1, 2)] none (1/10) 1
    (by norm_num)

/-- C9 counterexample: at prior value `0.0`, `get_terminal_perf` (which
tests `prev_val is not None`) recovers at index 0, while
`get_block_saturation_perf` (which tests truthiness) returns the sentinel
`3`; the two episodes-to-recovery computations are not identical. -/
theorem get_terminal_perf_zero_prior_cex :
    (get_terminal_perf [((0 : ℤ), (1 : ℚ)), (1, 2)] (some 0) true none (1/10)).2.2 = 0 ∧
      (get_block_saturation_perf [((0 : ℤ), (1 : ℚ)), (1, 2)] (some 0) none).2.2 = 3 := by
  have hsm : smoothTotal anyTaper (groupMeans [((0 : ℤ), (1 : ℚ)), (1, 2)]) none "flat" =
      [1, 2] := by
    norm_num [groupMeans, List.insertionSort, List.orderedInsert, List.dedup,
      smoothTotal, resolveWindowLen, intTimesPointTwo]
  constructor
  · simp [get_terminal_perf, hsm, List.findIdx_cons]
  · simp [get_block_saturation_perf]

section SampleEfficiencyModel

/-- `pandas.Series.unique()`: distinct values in order of first
appearance. -/
def uniqueFirst {α : Type} [DecidableEq α] (l : List α) : List α :=
  l.foldl (fun acc a => if a ∈ acc then acc else acc ++ [a]) []

theorem mem_uniqueFirst_foldl {α : Type} [DecidableEq α] :
    ∀ (l acc : List α) (x : α),
      x ∈ l.foldl (fun acc a => if a ∈ acc then acc else acc ++ [a]) acc ↔
        x ∈ acc ∨ x ∈ l := by
  intro l
  induction l with
  | nil => intro acc x; simp
  | cons a t ih =>
    intro acc x
    rw [List.foldl_cons, ih]
    by_cases ha : a ∈ acc <;> by_cases hx : x = a <;> subst_eqs <;>
      simp [ha] <;> tauto

theorem mem_uniqueFirst {α : Type} [DecidableEq α] (l : List α) (x : α) :
    x ∈ uniqueFirst l ↔ x ∈ l := by
  rw [uniqueFirst, mem_uniqueFirst_foldl]
  simp

/-- `SampleEfficiency.validate` (`sample_efficiency.py` lines 44-55), on
the scenario's `task_name` column and the keys of the STE store.  It
raises (`Except.error`) only when *no* task has STE data
(`~np.any(np.isin(unique_tasks, ste_names))`); when some but not all
tasks have STE data it merely issues a warning, modelled by the returned
`Bool` (`~np.all(np.isin(unique_tasks, ste_names))`). -/
def sampleEfficiencyValidate (block_info_tasks : List String)
    (ste_keys : List String) : Except String Bool :=
  let unique_tasks := uniqueFirst block_info_tasks
  if !(unique_tasks.any fun t => ste_keys.contains t) then
    .error "No STE data available for any task"
  else
    .ok (!(unique_tasks.all fun t => ste_keys.contains t))

/-- C4 counterexample: a scenario with tasks `A` and `B` where only `A`
has an STE baseline passes validation (with a warning), instead of
failing: a missing baseline for *one* task does not raise. -/
theorem sampleEfficiencyValidate_partial_cex :
    sampleEfficiencyValidate ["A", "B"] ["A"] = .ok true := by
  rfl

/-- C4 (amended): the STE-availability validation of the sample-efficiency
module fails (raises) exactly when *no* task in the scenario has an STE
baseline; when a baseline is missing for only some of the tasks it
returns successfully, flagging a warning instead. -/
theorem sampleEfficiencyValidate_error_iff (block_info_tasks ste_keys : List String) :
    ((∃ e, sampleEfficiencyValidate block_info_tasks ste_keys = .error e) ↔
        ∀ t ∈ block_info_tasks, t ∉ ste_keys) ∧
      ((∃ w, sampleEfficiencyValidate block_info_tasks ste_keys = .ok w) ↔
        ∃ t ∈ block_info_tasks, t ∈ ste_keys) := by
  have hany : ((uniqueFirst block_info_tasks).any fun t => ste_keys.contains t) = true ↔
      ∃ t ∈ block_info_tasks, t ∈ ste_keys := by
    simp [List.any_eq_true, mem_uniqueFirst]
  by_cases hP : ((uniqueFirst block_info_tasks).any fun t => ste_keys.contains t) = true
  · have hok : sampleEfficiencyValidate block_info_tasks ste_keys =
        .ok (!((uniqueFirst block_info_tasks).all fun t => ste_keys.contains t)) := by
      simp only [sampleEfficiencyValidate, hP]
      simp only [Bool.not_true, Bool.false_eq_true, if_false]
    have hex := hany.1 hP
    rw [hok]
    constructor
    · constructor
      · intro ⟨e, he⟩
        simp at he
      · intro hall
        obtain ⟨t, ht, hin⟩ := hex
        exact absurd hin (hall t ht)
    · exact ⟨fun _ => hex, fun _ => ⟨_, rfl⟩⟩
  · have herr : sampleEfficiencyValidate block_info_tasks ste_keys =
        .error "No STE data available for any task" := by
      simp only [sampleEfficiencyValidate, hP]
      simp only [Bool.not_false, if_true]
    have hnall : ∀ t ∈ block_info_tasks, t ∉ ste_keys := by
      intro t ht hin
      exact hP (hany.2 ⟨t, ht, hin⟩)
    rw [herr]
    constructor
    · exact ⟨fun _ => hnall, fun _ => ⟨_, rfl⟩⟩
    · constructor
      · intro ⟨w, hw⟩
        simp at hw
      · intro ⟨t, ht, hin⟩
        exact absurd hin (hnall t ht)

end SampleEfficiencyModel

section SampleEfficiencyMetricsBranch

/-- One row of an STE repetition's log: its `block_type`, `exp_num` and
the configured performance measure. -/
structure SteRow where
  block_type : String
  exp_num : ℤ
  perf : ℚ

/-- `get_block_saturation_perf(ste_data_df[ste_data_df['block_type'] ==
'train'], col_to_use=perf_measure)` for one STE repetition
(`sample_efficiency.py` lines 112-117): saturation statistics of the
repetition's train rows, with default prior and window length. -/
def steRepPerf (rep : List SteRow) : ℚ × ℕ × ℕ :=
  get_block_saturation_perf
    (((rep.filter fun r => r.block_type == "train").map fun r => (r.exp_num, r.perf)))
    none none

/-- The `sample_efficiency_vals` list built by the
`ste_averaging_method == 'metrics'` branch of `SampleEfficiency.calculate`
(`sample_efficiency.py` lines 109-128): one value
`(task_saturation/ste_saturation) * (ste_eps_to_sat/task_eps_to_sat)` per
STE repetition, skipping (`continue`) repetitions whose episodes to
saturation is 0. -/
def sampleEfficiencyMetricsVals (task_saturation : ℚ) (task_eps_to_sat : ℕ)
    (ste_data : List (List SteRow)) : List ℚ :=
  ste_data.filterMap fun rep =>
    let r := steRepPerf rep
    if r.2.1 = 0 then none
    else some ((task_saturation / r.1) * ((r.2.1 : ℚ) / (task_eps_to_sat : ℚ)))

/-- `sample_efficiency[...] = np.mean(sample_efficiency_vals)`
(`sample_efficiency.py` line 130): the sample-efficiency value recorded
for the task under the `'metrics'` averaging method. -/
def sampleEfficiencyMetricsRecord (task_saturation : ℚ) (task_eps_to_sat : ℕ)
    (ste_data : List (List SteRow)) : ℚ :=
  pymean (sampleEfficiencyMetricsVals task_saturation task_eps_to_sat ste_data)

/-- C6: with `ste_averaging_method='metrics'` and a single STE repetition
whose episodes-to-saturation is nonzero (and a nonzero task
episodes-to-saturation), the recorded sample efficiency equals
`(task_saturation/ste_saturation) * (ste_eps_to_sat/task_eps_to_sat)`
computed directly from that repetition: averaging the one-element list
introduces no discrepancy. -/
theorem sampleEfficiency_metrics_single_rep (task_saturation : ℚ)
    (task_eps_to_sat : ℕ) (rep : List SteRow)
    (htask : task_eps_to_sat ≠ 0) (hste : (steRepPerf rep).2.1 ≠ 0) :
    sampleEfficiencyMetricsRecord task_saturation task_eps_to_sat [rep] =
      (task_saturation / (steRepPerf rep).1) *
        (((steRepPerf rep).2.1 : ℚ) / (task_eps_to_sat : ℚ)) := by
  unfold sampleEfficiencyMetricsRecord sampleEfficiencyMetricsVals pymean
  simp [hste]

/-- C6 witness: instance of `sampleEfficiency_metrics_single_rep` on a
concrete single-repetition STE store. -/
theorem sampleEfficiency_metrics_single_rep_witness :
    (1 : ℕ) ≠ 0 ∧ (steRepPerf [⟨"train", 0, 1⟩, ⟨"train", 1, 2⟩]).2.1 ≠ 0 ∧
      sampleEfficiencyMetricsRecord 2 1 [[⟨"train", 0, 1⟩, ⟨"train", 1, 2⟩]] =
        ((2 : ℚ) / (steRepPerf [⟨"train", 0, 1⟩, ⟨"train", 1, 2⟩]).1) *
          (((steRepPerf [⟨"train", 0, 1⟩, ⟨"train", 1, 2⟩]).2.1 : ℚ) /
            (((1 : ℕ) : ℚ))) := by
  have hste : (steRepPerf [⟨"train", 0, 1⟩, ⟨"train", 1, 2⟩]).2.1 = 1 := by
    norm_num [steRepPerf, get_block_saturation_perf, groupMeans, List.insertionSort,
      List.orderedInsert, List.dedup, smoothTotal, resolveWindowLen, intTimesPointTwo,
      nanmax, List.findIdx_cons, max_def, List.filter_cons]
  exact ⟨one_ne_zero, by rw [hste]; norm_num,
    sampleEfficiency_metrics_single_rep 2 1 _ one_ne_zero (by rw [hste]; norm_num)⟩

end SampleEfficiencyMetricsBranch

section MetricsDfModel

/-- A metrics data frame: a row index (`regime_num`-valued labels in the
callers) and named columns of float-or-NaN cells (`Option ℚ`: `none` is
NaN / not computed). -/
structure MetricsDf where
  index : List ℤ
  cols : List (String × List (Option ℚ))

/-- `metrics_df[name]`: the named column, if present. -/
def getCol (df : MetricsDf) (name : String) : Option (List (Option ℚ)) :=
  (df.cols.find? fun c => c.1 == name).map Prod.snd

/-- `metrics_df[name] = vals`: replace the column if the name exists,
else append it. -/
def setCol (df : MetricsDf) (name : String) (vals : List (Option ℚ)) : MetricsDf :=
  if df.cols.any fun c => c.1 == name then
    ⟨df.index, df.cols.map fun c => if c.1 == name then (c.1, vals) else c⟩
  else
    ⟨df.index, df.cols ++ [(name, vals)]⟩

/-- `metrics_df.loc[label, name] = v`: set the cell of column `name` in
every row whose index label equals `label`.  (For a label absent from the
index, pandas would instead enlarge the frame; the claim's hypotheses
restrict the metric keys to existing row indices, where this model
coincides with pandas.) -/
def setCellByLabel (df : MetricsDf) (label : ℤ) (name : String) (v : ℚ) : MetricsDf :=
  ⟨df.index, df.cols.map fun c =>
    if c.1 == name then
      (c.1, List.zipWith (fun lbl cell => if lbl == label then some v else cell) df.index c.2)
    else c⟩

/-- `fill_metrics_df(metric, metric_string_name, metrics_df)` without
`dict_key` (`_localutil.py` lines 131-135): create the column as
`np.full_like(metrics_df['regime_num'], np.nan)` (all-NaN, one cell per
row; `none` if `regime_num` is absent, where pandas raises `KeyError`),
then assign `metric[idx]` at each key `idx` of the metric dict in
iteration order. -/
def fill_metrics_df (metric : List (ℤ × ℚ)) (metric_string_name : String)
    (metrics_df : MetricsDf) : Option MetricsDf :=
  match getCol metrics_df "regime_num" with
  | none => none
  | some rn =>
    let df1 := setCol metrics_df metric_string_name (List.replicate rn.length none)
    some (metric.foldl (fun d kv => setCellByLabel d kv.1 metric_string_name kv.2) df1)

theorem map_id_of_eq {α : Type} (f : α → α) :
    ∀ l : List α, (∀ x ∈ l, f x = x) → l.map f = l := by
  intro l h
  induction l with
  | nil => rfl
  | cons a t ih =>
    simp only [List.map_cons, h a (by simp), ih fun x hx => h x (by simp [hx])]

theorem foldl_setCell_eq (name : String) (idx : List ℤ)
    (pre : List (String × List (Option ℚ))) (hpre : ∀ c ∈ pre, c.1 ≠ name) :
    ∀ (ms : List (ℤ × ℚ)) (vals : List (Option ℚ)),
      ms.foldl (fun d kv => setCellByLabel d kv.1 name kv.2)
          ⟨idx, pre ++ [(name, vals)]⟩ =
        (⟨idx, pre ++ [(name, ms.foldl (fun vs kv =>
          List.zipWith (fun lbl cell => if lbl == kv.1 then some kv.2 else cell) idx vs)
            vals)]⟩ : MetricsDf) := by
  intro ms
  induction ms with
  | nil => intro vals; rfl
  | cons kv ms ih =>
    intro vals
    rw [List.foldl_cons, List.foldl_cons]
    have hstep : setCellByLabel ⟨idx, pre ++ [(name, vals)]⟩ kv.1 name kv.2 =
        (⟨idx, pre ++ [(name,
          List.zipWith (fun lbl cell => if lbl == kv.1 then some kv.2 else cell) idx vals)]⟩ :
            MetricsDf) := by
      unfold setCellByLabel
      simp only [List.map_append]
      congr 1
      rw [map_id_of_eq _ pre (fun c hc => by
        have hne : (c.1 == name) = false := by simp [hpre c hc]
        simp [hne])]
      simp
    rw [hstep, ih]

theorem zipUpd_getD (idx : List ℤ) (lbl : ℤ) (v : ℚ) (vals : List (Option ℚ))
    (hlen : vals.length = idx.length) (pos : ℕ) (hpos : pos < idx.length) :
    (List.zipWith (fun l cell => if l == lbl then some v else cell) idx vals).getD pos none =
      if idx.getD pos 0 == lbl then some v else vals.getD pos none := by
  have h1 : pos < (List.zipWith
      (fun l cell => if l == lbl then some v else cell) idx vals).length := by
    rw [List.length_zipWith]
    omega
  rw [List.getD_eq_getElem _ _ h1, List.getElem_zipWith,
    List.getD_eq_getElem _ _ hpos, List.getD_eq_getElem _ _ (show pos < vals.length by omega)]

theorem zipUpd_length (idx : List ℤ) (lbl : ℤ) (v : ℚ) (vals : List (Option ℚ))
    (hlen : vals.length = idx.length) :
    (List.zipWith (fun l cell => if l == lbl then some v else cell) idx vals).length =
      idx.length := by
  rw [List.length_zipWith]
  omega

theorem foldl_zipUpd_length (idx : List ℤ) :
    ∀ (ms : List (ℤ × ℚ)) (vals : List (Option ℚ)), vals.length = idx.length →
      (ms.foldl (fun vs kv =>
        List.zipWith (fun lbl cell => if lbl == kv.1 then some kv.2 else cell) idx vs)
          vals).length = idx.length := by
  intro ms
  induction ms with
  | nil => intro vals h; exact h
  | cons kv ms ih =>
    intro vals h
    rw [List.foldl_cons]
    exact ih _ (zipUpd_length idx kv.1 kv.2 vals h)

theorem foldl_zipUpd_getD (idx : List ℤ) :
    ∀ (ms : List (ℤ × ℚ)), (ms.map Prod.fst).Nodup →
      ∀ (vals : List (Option ℚ)), vals.length = idx.length →
        ∀ pos, pos < idx.length →
          (ms.foldl (fun vs kv =>
            List.zipWith (fun lbl cell => if lbl == kv.1 then some kv.2 else cell) idx vs)
              vals).getD pos none =
            match ms.find? fun kv => kv.1 == idx.getD pos 0 with
            | some kv => some kv.2
            | none => vals.getD pos none := by
  intro ms
  induction ms with
  | nil => intro _ vals _ pos _; rfl
  | cons kv ms ih =>
    intro hnd vals hlen pos hpos
    rw [List.map_cons] at hnd
    obtain ⟨hnotin, hnd'⟩ := List.nodup_cons.1 hnd
    rw [List.foldl_cons, ih hnd' _ (zipUpd_length idx kv.1 kv.2 vals hlen) pos hpos]
    by_cases heq : kv.1 = idx.getD pos 0
    · have hfind : ms.find? (fun kv' => kv'.1 == idx.getD pos 0) = none := by
        rw [List.find?_eq_none]
        intro kv' hkv' hbeq
        have h2 : kv'.1 = kv.1 := by rw [beq_iff_eq.1 hbeq, heq]
        exact hnotin (h2 ▸ List.mem_map_of_mem Prod.fst hkv')
      have hfind2 : List.find? (fun kv' => kv'.1 == idx.getD pos 0) (kv :: ms) = some kv :=
        List.find?_cons_of_pos _ (by rw [heq]; exact beq_self_eq_true _)
      rw [hfind, hfind2, zipUpd_getD idx kv.1 kv.2 vals hlen pos hpos]
      simp [heq]
    · have hcons : List.find? (fun kv' => kv'.1 == idx.getD pos 0) (kv :: ms) =
          List.find? (fun kv' => kv'.1 == idx.getD pos 0) ms :=
        List.find?_cons_of_neg _ (by rw [Bool.not_eq_true, beq_eq_false_iff_ne]; exact heq)
      rw [hcons]
      cases hf : List.find? (fun kv' => kv'.1 == idx.getD pos 0) ms with
      | some kv' => rfl
      | none =>
        rw [zipUpd_getD idx kv.1 kv.2 vals hlen pos hpos]
        have hne : (idx.getD pos 0 == kv.1) = false := by
          rw [beq_eq_false_iff_ne]
          exact fun h => heq h.symm
        rw [hne]
        simp

/-- C10: on a metrics table that has a `regime_num` column, a fresh column
name, and a metric whose keys are (distinct) row indices,
`fill_metrics_df` returns the table with the index and all existing
columns unchanged and exactly one new column appended, whose cell at each
row equals the metric's value for that row's index and is NaN (`none`) at
every other row. -/
theorem fill_metrics_df_spec (df : MetricsDf) (metric : List (ℤ × ℚ)) (name : String)
    (hwf : ∀ c ∈ df.cols, c.2.length = df.index.length)
    (hrn : "regime_num" ∈ df.cols.map Prod.fst)
    (hname : name ∉ df.cols.map Prod.fst)
    (hkeys : ∀ kv ∈ metric, kv.1 ∈ df.index)
    (hnodup : (metric.map Prod.fst).Nodup) :
    ∃ newvals,
      fill_metrics_df metric name df = some ⟨df.index, df.cols ++ [(name, newvals)]⟩ ∧
        newvals.length = df.index.length ∧
        ∀ pos, pos < df.index.length →
          newvals.getD pos none =
            (metric.find? fun kv => kv.1 == df.index.getD pos 0).map Prod.snd := by
  obtain ⟨c₀, hc₀, hc₀name⟩ : ∃ c ∈ df.cols, c.1 = "regime_num" := by
    obtain ⟨c, hc, hcn⟩ := List.mem_map.1 hrn
    exact ⟨c, hc, hcn⟩
  have hfound : ∃ c₁, df.cols.find? (fun c => c.1 == "regime_num") = some c₁ := by
    cases hf : df.cols.find? fun c => c.1 == "regime_num" with
    | some c₁ => exact ⟨c₁, rfl⟩
    | none =>
      exact absurd (beq_iff_eq.2 hc₀name) (List.find?_eq_none.1 hf c₀ hc₀)
  obtain ⟨c₁, hc₁⟩ := hfound
  have hc₁mem : c₁ ∈ df.cols := List.mem_of_find?_eq_some hc₁
  have hrnCol : getCol df "regime_num" = some c₁.2 := by
    rw [getCol, hc₁]
    rfl
  have hrnLen : c₁.2.length = df.index.length := hwf c₁ hc₁mem
  have hpre : ∀ c ∈ df.cols, c.1 ≠ name := fun c hc h =>
    hname (List.mem_map.2 ⟨c, hc, h⟩)
  have hsetCol : setCol df name (List.replicate c₁.2.length none) =
      ⟨df.index, df.cols ++ [(name, List.replicate c₁.2.length none)]⟩ := by
    unfold setCol
    have hany : (df.cols.any fun c => c.1 == name) = false := by
      rw [List.any_eq_false]
      intro c hc hbeq
      exact hpre c hc (beq_iff_eq.1 hbeq)
    rw [hany]
    simp
  have hrepl : (List.replicate c₁.2.length (none : Option ℚ)).length = df.index.length := by
    simp [hrnLen]
  refine ⟨_, ?_, foldl_zipUpd_length df.index metric _ hrepl, ?_⟩
  · unfold fill_metrics_df
    rw [hrnCol]
    simp only
    rw [hsetCol, foldl_setCell_eq name df.index df.cols hpre metric
      (List.replicate c₁.2.length none)]
  · intro pos hpos
    rw [foldl_zipUpd_getD df.index metric hnodup _ hrepl pos hpos]
    cases hf : metric.find? fun kv => kv.1 == df.index.getD pos 0 with
    | some kv => rfl
    | none => simp

/-- C10 witness: instance of `fill_metrics_df_spec` on a concrete one-row
table. -/
theorem fill_metrics_df_spec_witness :
    ∃ newvals,
      fill_metrics_df [((0 : ℤ), (5 : ℚ))] "recovery_time"
          ⟨[0], [("regime_num", [some 0])]⟩ =
        some ⟨[0], [("regime_num", [some 0])] ++ [("recovery_time", newvals)]⟩ ∧
        newvals.length = ([(0 : ℤ)] : List ℤ).length ∧
        ∀ pos, pos < ([(0 : ℤ)] : List ℤ).length →
          newvals.getD pos none =
            ([((0 : ℤ), (5 : ℚ))].find? fun kv =>
              kv.1 == ([(0 : ℤ)] : List ℤ).getD pos 0).map Prod.snd :=
  fill_metrics_df_spec ⟨[0], [("regime_num", [some 0])]⟩ [((0 : ℤ), (5 : ℚ))]
    "recovery_time" (by simp) (by simp) (by simp) (by simp) (by simp)

end MetricsDfModel

section PerfMaintenance

/-- One row of the `phase_info` table, in the frame's index order:
`phase_number`, `phase_type` (`'train'` or `'test'`), `task_name`, and the
`block` id. -/
structure PhaseRow where
  phase_number : ℤ
  phase_type : String
  task_name : String
  block : ℤ

/-- The running state of `PerfMaintenanceANT.calculate`
(`agent.py` lines 150-153): the `previously_trained_tasks` and
`previously_trained_task_ids` arrays, the `this_metric` dict and the
`all_maintenance_vals` list. -/
structure PMState where
  prevTasks : List String
  prevIds : List ℤ
  metric : List (String × ℚ)
  vals : List ℚ

/-- Python dict assignment `d[k] = v`: overwrite the value if the key
exists, else append the pair. -/
def dictInsert (d : List (String × ℚ)) (k : String) (v : ℚ) : List (String × ℚ) :=
  if d.any fun kv => kv.1 == k then
    d.map fun kv => if kv.1 == k then (k, v) else kv
  else d ++ [(k, v)]

/-- The body of the inner loop of `PerfMaintenanceANT.calculate`
(`agent.py` lines 172-187) for one test occurrence `r` of the current
phase `p`: if the task is in `previously_trained_tasks`, look up the
block id at the FIRST index where it occurs (`np.where(...)[0]` then
`[0]`), record `saturation(that block) − saturation(current block)` under
`task + '_phase_' + str(phase) + '_maintenance'`, and append it to
`all_maintenance_vals`. -/
def pmTestStep (sat : ℤ → ℚ) (p : ℤ) (st : PMState) (r : PhaseRow) : PMState :=
  if r.task_name ∈ st.prevTasks then
    let i := st.prevTasks.findIdx fun t => t == r.task_name
    let comparison_id := st.prevIds.getD i 0
    let this_comparison := sat comparison_id - sat r.block
    let key := r.task_name ++ "_phase_" ++ toString p ++ "_maintenance"
    ⟨st.prevTasks, st.prevIds, dictInsert st.metric key this_comparison,
      st.vals ++ [this_comparison]⟩
  else st

/-- One iteration of the outer phase loop of
`PerfMaintenanceANT.calculate` (`agent.py` lines 156-187): append the
phase's training task names and block ids to the `previously_trained`
arrays *before* processing the phase's test occurrences. -/
def pmPhaseStep (info : List PhaseRow) (sat : ℤ → ℚ) (st : PMState) (p : ℤ) : PMState :=
  let trained := info.filter fun r => r.phase_type == "train" && r.phase_number == p
  let st1 : PMState := ⟨st.prevTasks ++ trained.map (·.task_name),
    st.prevIds ++ trained.map (·.block), st.metric, st.vals⟩
  let tests := info.filter fun r => r.phase_type == "test" && r.phase_number == p
  tests.foldl (pmTestStep sat p) st1

/-- `PerfMaintenanceANT.calculate` (`agent.py` lines 147-193).  `info` is
the `phase_info` table in index order (`phase_info.sort_index()`), `sat`
is `metrics_dict['saturation_value']` keyed by block id.  The phases are
walked in the order of `.loc[:, 'phase_number'].unique()` (first
appearance); the return value is
(`mean_performance_difference` = `np.mean(all_maintenance_vals)`, the
`performance_maintenance` dict). -/
def perfMaintenanceCalc (info : List PhaseRow) (sat : ℤ → ℚ) : ℚ × List (String × ℚ) :=
  let phases := uniqueFirst (info.map (·.phase_number))
  let final := phases.foldl (pmPhaseStep info sat) ⟨[], [], [], []⟩
  (pymean final.vals, final.metric)

/-- Declarative description of the `previously_trained` arrays at the
time phase `p`'s test blocks are processed: all training rows of phases
up to *and including* `p`. -/
def trainRowsUpTo (info : List PhaseRow) (p : ℤ) : List PhaseRow :=
  info.filter fun r => r.phase_type == "train" && decide (r.phase_number ≤ p)

/-- The maintenance value computed for a test occurrence `r`, given the
prior-training rows `PT`: `saturation(block of the FIRST training row
with the same task) − saturation(current block)`, or nothing if the task
was never trained. -/
def pmCompVal (PT : List PhaseRow) (sat : ℤ → ℚ) (r : PhaseRow) : Option ℚ :=
  match PT.find? fun s => s.task_name == r.task_name with
  | some s => some (sat s.block - sat r.block)
  | none => none

/-- The dict entry recorded for a test occurrence `r` in phase `p`. -/
def pmCompEntry (PT : List PhaseRow) (sat : ℤ → ℚ) (p : ℤ) (r : PhaseRow) :
    Option (String × ℚ) :=
  (pmCompVal PT sat r).map fun v =>
    (r.task_name ++ "_phase_" ++ toString p ++ "_maintenance", v)

/-- Maintenance values of phase `p`, in test-row order: one value per test
occurrence whose task was trained in an earlier phase or in phase `p`
itself. -/
def phaseMaintVals (info : List PhaseRow) (sat : ℤ → ℚ) (p : ℤ) : List ℚ :=
  (info.filter fun r => r.phase_type == "test" && r.phase_number == p).filterMap
    (pmCompVal (trainRowsUpTo info p) sat)

/-- Dict entries of phase `p`, in test-row order. -/
def phaseMaintEntries (info : List PhaseRow) (sat : ℤ → ℚ) (p : ℤ) :
    List (String × ℚ) :=
  (info.filter fun r => r.phase_type == "test" && r.phase_number == p).filterMap
    (pmCompEntry (trainRowsUpTo info p) sat p)

/-- All maintenance values of the run, phase by phase. -/
def specMaintVals (info : List PhaseRow) (sat : ℤ → ℚ) : List ℚ :=
  ((uniqueFirst (info.map (·.phase_number))).map (phaseMaintVals info sat)).flatten

/-- All dict entries of the run, phase by phase. -/
def specMaintEntries (info : List PhaseRow) (sat : ℤ → ℚ) : List (String × ℚ) :=
  ((uniqueFirst (info.map (·.phase_number))).map (phaseMaintEntries info sat)).flatten

/-- C3 counterexample: a single-phase scenario that trains task `X`
(block 0, saturation 5) and tests `X` in the *same* phase (block 1,
saturation 3).  No task is trained in a phase strictly before a test
phase, yet `calculate` records the maintenance value `2` — the training
blocks of the current phase are appended to `previously_trained_tasks`
before its test blocks are processed. -/
theorem perfMaintenance_same_phase_cex :
    perfMaintenanceCalc
        [⟨1, "train", "X", 0⟩, ⟨1, "test", "X", 1⟩]
        (fun b => if b = 0 then (5 : ℚ) else 3) =
      (2, [("X_phase_1_maintenance", 2)]) ∧
      ∀ r ∈ [(⟨1, "train", "X", 0⟩ : PhaseRow), ⟨1, "test", "X", 1⟩],
        ∀ r' ∈ [(⟨1, "train", "X", 0⟩ : PhaseRow), ⟨1, "test", "X", 1⟩],
          ¬(r.phase_type = "train" ∧ r'.phase_type = "test" ∧
            r.phase_number < r'.phase_number) := by
  constructor
  · norm_num [perfMaintenanceCalc, pmPhaseStep, pmTestStep, dictInsert, uniqueFirst,
      pymean, List.filter_cons, List.findIdx_cons,
      (by decide : ¬(("test" : String) = "train")),
      (by decide : ¬(("train" : String) = "test")),
      (by decide : ("X" ++ "_phase_" ++ toString (1 : ℤ) ++ "_maintenance") =
        "X_phase_1_maintenance")]
  · decide

end PerfMaintenance

section PerfMaintenanceProof

theorem uniqueFirst_foldl_nodup {α : Type} [DecidableEq α] :
    ∀ (l acc : List α), acc.Nodup →
      (l.foldl (fun acc a => if a ∈ acc then acc else acc ++ [a]) acc).Nodup := by
  intro l
  induction l with
  | nil => intro acc h; exact h
  | cons a t ih =>
    intro acc h
    rw [List.foldl_cons]
    by_cases ha : a ∈ acc
    · rw [if_pos ha]
      exact ih acc h
    · rw [if_neg ha]
      refine ih _ (List.nodup_append.2 ⟨h, List.nodup_singleton a, ?_⟩)
      intro x hx hx1
      rw [List.mem_singleton] at hx1
      exact ha (hx1 ▸ hx)

theorem uniqueFirst_nodup {α : Type} [DecidableEq α] (l : List α) :
    (uniqueFirst l).Nodup :=
  uniqueFirst_foldl_nodup l [] List.nodup_nil

theorem uniqueFirst_foldl_sorted :
    ∀ (l acc : List ℤ), l.Sorted (· ≤ ·) → acc.Sorted (· ≤ ·) →
      (∀ b ∈ acc, ∀ x ∈ l, b ≤ x) →
      (l.foldl (fun acc a => if a ∈ acc then acc else acc ++ [a]) acc).Sorted (· ≤ ·) := by
  intro l
  induction l with
  | nil => intro acc _ hacc _; exact hacc
  | cons a t ih =>
    intro acc hl hacc hcross
    obtain ⟨hhead, htail⟩ := List.sorted_cons.1 hl
    rw [List.foldl_cons]
    by_cases ha : a ∈ acc
    · rw [if_pos ha]
      exact ih acc htail hacc fun b hb x hx => hcross b hb x (by simp [hx])
    · rw [if_neg ha]
      refine ih (acc ++ [a]) htail ?_ ?_
      · rw [List.Sorted, List.pairwise_append]
        exact ⟨hacc, List.pairwise_singleton _ a,
          fun b hb c hc => (List.mem_singleton.1 hc) ▸ hcross b hb a (by simp)⟩
      · intro b hb x hx
        rcases List.mem_append.1 hb with h | h
        · exact hcross b h x (by simp [hx])
        · exact (List.mem_singleton.1 h) ▸ hhead x hx

theorem uniqueFirst_sorted_lt (l : List ℤ) (hl : l.Sorted (· ≤ ·)) :
    (uniqueFirst l).Sorted (· < ·) := by
  have h1 : (uniqueFirst l).Sorted (· ≤ ·) :=
    uniqueFirst_foldl_sorted l [] hl List.sorted_nil (by simp)
  have h2 : (uniqueFirst l).Nodup := uniqueFirst_nodup l
  exact (h1.and h2).imp fun h => lt_of_le_of_ne h.1 h.2

theorem trainRows_split_none (info : List PhaseRow) (q : ℤ)
    (hnone : ∀ r ∈ info, ¬ r.phase_number < q) :
    info.filter (fun r => r.phase_type == "train" && r.phase_number == q) =
      trainRowsUpTo info q := by
  unfold trainRowsUpTo
  apply List.filter_congr
  intro r hr
  have h2 : (r.phase_number == q) = decide (r.phase_number ≤ q) := by
    by_cases h : r.phase_number = q
    · simp [h]
    · have hnle : ¬ r.phase_number ≤ q := fun hle =>
        hnone r hr (lt_of_le_of_ne hle h)
      simp [h, hnle]
  rw [h2]

theorem trainRows_split_some (info : List PhaseRow)
    (hs : (info.map (·.phase_number)).Sorted (· ≤ ·)) (c q : ℤ) (hcq : c < q)
    (hgap : ∀ r ∈ info, r.phase_number < q → r.phase_number ≤ c) :
    trainRowsUpTo info c ++
        info.filter (fun r => r.phase_type == "train" && r.phase_number == q) =
      trainRowsUpTo info q := by
  induction info with
  | nil => rfl
  | cons r t ih =>
    rw [List.map_cons] at hs
    obtain ⟨hhead, htail⟩ := List.sorted_cons.1 hs
    have hgap' : ∀ s ∈ t, s.phase_number < q → s.phase_number ≤ c :=
      fun s hst => hgap s (by simp [hst])
    unfold trainRowsUpTo at ih ⊢
    by_cases htr : (r.phase_type == "train") = true
    · by_cases h1 : r.phase_number ≤ c
      · have hA : (r.phase_type == "train" && decide (r.phase_number ≤ c)) = true := by
          simp [htr, h1]
        have hB : (r.phase_type == "train" && (r.phase_number == q)) = false := by
          have : r.phase_number ≠ q := by omega
          simp [this]
        have hC : (r.phase_type == "train" && decide (r.phase_number ≤ q)) = true := by
          have : r.phase_number ≤ q := by omega
          simp [htr, this]
        rw [List.filter_cons, List.filter_cons, List.filter_cons, hA, hB, hC]
        simp only [if_true, Bool.false_eq_true, if_false, List.cons_append]
        rw [ih htail hgap']
      · by_cases h2 : r.phase_number = q
        · have hA : (r.phase_type == "train" && decide (r.phase_number ≤ c)) = false := by
            simp [h1]
          have hB : (r.phase_type == "train" && (r.phase_number == q)) = true := by
            simp [htr, h2]
          have hC : (r.phase_type == "train" && decide (r.phase_number ≤ q)) = true := by
            simp [htr, h2]
          rw [List.filter_cons, List.filter_cons, List.filter_cons, hA, hB, hC]
          simp only [if_true, Bool.false_eq_true, if_false]
          have hAnil : t.filter (fun s => s.phase_type == "train" &&
              decide (s.phase_number ≤ c)) = [] := by
            rw [List.filter_eq_nil_iff]
            intro s hst
            have : r.phase_number ≤ s.phase_number := hhead _ (List.mem_map_of_mem _ hst)
            have : ¬ s.phase_number ≤ c := by omega
            simp [this]
          rw [hAnil]
          simp only [List.nil_append, List.cons_append, List.nil_append]
          congr 1
          apply List.filter_congr
          intro s hst
          have hge : r.phase_number ≤ s.phase_number := hhead _ (List.mem_map_of_mem _ hst)
          have heq : (s.phase_number == q) = decide (s.phase_number ≤ q) := by
            by_cases hh : s.phase_number = q
            · simp [hh]
            · have : ¬ s.phase_number ≤ q := by omega
              simp [hh, this]
          rw [heq]
        · have hq : q < r.phase_number := by
            by_cases hlt : r.phase_number < q
            · exact absurd (hgap r (by simp) hlt) h1
            · omega
          have hA : (r.phase_type == "train" && decide (r.phase_number ≤ c)) = false := by
            simp [h1]
          have hB : (r.phase_type == "train" && (r.phase_number == q)) = false := by
            simp [h2]
          have hC : (r.phase_type == "train" && decide (r.phase_number ≤ q)) = false := by
            have : ¬ r.phase_number ≤ q := by omega
            simp [this]
          rw [List.filter_cons, List.filter_cons, List.filter_cons, hA, hB, hC]
          simp only [Bool.false_eq_true, if_false]
          exact ih htail hgap'
    · have hfalse : ∀ b : Bool, (r.phase_type == "train" && b) = false := by
        intro b
        simp only [Bool.not_eq_true] at htr
        simp [htr]
      rw [List.filter_cons, List.filter_cons, List.filter_cons, hfalse, hfalse, hfalse]
      simp only [Bool.false_eq_true, if_false]
      exact ih htail hgap'

theorem findIdx_prev (PT : List PhaseRow) (tn : String)
    (h : tn ∈ PT.map (·.task_name)) :
    ∃ s, PT.find? (fun s => s.task_name == tn) = some s ∧
      (PT.map (·.block)).getD
        ((PT.map (·.task_name)).findIdx fun t => t == tn) 0 = s.block := by
  induction PT with
  | nil => simp at h
  | cons s0 t ih =>
    by_cases h0 : s0.task_name = tn
    · refine ⟨s0, List.find?_cons_of_pos _ (by simp [h0]), ?_⟩
      simp [List.findIdx_cons, h0]
    · have h' : tn ∈ t.map (·.task_name) := by
        rcases List.mem_cons.1 h with hh | hh
        · exact absurd hh.symm h0
        · exact hh
      obtain ⟨s, hf, hg⟩ := ih h'
      refine ⟨s, ?_, ?_⟩
      · rw [List.find?_cons_of_neg _ (by simp [h0])]
        exact hf
      · simp only [List.map_cons, List.findIdx_cons]
        have hb : (s0.task_name == tn) = false := by
          rw [beq_eq_false_iff_ne]
          exact h0
        rw [hb]
        simpa using hg

end PerfMaintenanceProof

theorem pmTestFold (sat : ℤ → ℚ) (p : ℤ) (PT : List PhaseRow) :
    ∀ (tests : List PhaseRow) (metric : List (String × ℚ)) (vals : List ℚ),
      tests.foldl (pmTestStep sat p)
          ⟨PT.map (·.task_name), PT.map (·.block), metric, vals⟩ =
        ⟨PT.map (·.task_name), PT.map (·.block),
          (tests.filterMap (pmCompEntry PT sat p)).foldl
            (fun d kv => dictInsert d kv.1 kv.2) metric,
          vals ++ tests.filterMap (pmCompVal PT sat)⟩ := by
  intro tests
  induction tests with
  | nil => intro metric vals; simp
  | cons r tests ih =>
    intro metric vals
    rw [List.foldl_cons]
    by_cases hmem : r.task_name ∈ PT.map (·.task_name)
    · obtain ⟨s, hf, hg⟩ := findIdx_prev PT r.task_name hmem
      have hval : pmCompVal PT sat r = some (sat s.block - sat r.block) := by
        rw [pmCompVal, hf]
      have hent : pmCompEntry PT sat p r =
          some (r.task_name ++ "_phase_" ++ toString p ++ "_maintenance",
            sat s.block - sat r.block) := by
        rw [pmCompEntry, hval]
        rfl
      have hstep : pmTestStep sat p
          ⟨PT.map (·.task_name), PT.map (·.block), metric, vals⟩ r =
          ⟨PT.map (·.task_name), PT.map (·.block),
            dictInsert metric (r.task_name ++ "_phase_" ++ toString p ++ "_maintenance")
              (sat s.block - sat r.block),
            vals ++ [sat s.block - sat r.block]⟩ := by
        unfold pmTestStep
        rw [if_pos hmem]
        simp only [hg]
      rw [hstep, ih]
      rw [List.filterMap_cons_some hent, List.filterMap_cons_some hval]
      simp [List.append_assoc]
    · have hfindnone : PT.find? (fun s => s.task_name == r.task_name) = none := by
        rw [List.find?_eq_none]
        intro s hs hbeq
        exact hmem (beq_iff_eq.1 hbeq ▸ List.mem_map_of_mem _ hs)
      have hval : pmCompVal PT sat r = none := by
        rw [pmCompVal, hfindnone]
      have hent : pmCompEntry PT sat p r = none := by
        rw [pmCompEntry, hval]
        rfl
      have hstep : pmTestStep sat p
          ⟨PT.map (·.task_name), PT.map (·.block), metric, vals⟩ r =
          ⟨PT.map (·.task_name), PT.map (·.block), metric, vals⟩ := by
        unfold pmTestStep
        rw [if_neg hmem]
      rw [hstep, ih, List.filterMap_cons_none hent, List.filterMap_cons_none hval]

theorem pmPhaseStep_spec (info : List PhaseRow) (sat : ℤ → ℚ) (q : ℤ)
    (st : PMState) (PTprev : List PhaseRow)
    (hT : st.prevTasks = PTprev.map (·.task_name))
    (hI : st.prevIds = PTprev.map (·.block))
    (hsplit : PTprev ++
        info.filter (fun r => r.phase_type == "train" && r.phase_number == q) =
      trainRowsUpTo info q) :
    pmPhaseStep info sat st q =
      ⟨(trainRowsUpTo info q).map (·.task_name), (trainRowsUpTo info q).map (·.block),
        ((phaseMaintEntries info sat q).foldl
          (fun d kv => dictInsert d kv.1 kv.2) st.metric),
        st.vals ++ phaseMaintVals info sat q⟩ := by
  unfold pmPhaseStep
  have h1 : st.prevTasks ++
      (info.filter fun r => r.phase_type == "train" && r.phase_number == q).map
        (·.task_name) = (trainRowsUpTo info q).map (·.task_name) := by
    rw [hT, ← List.map_append, hsplit]
  have h2 : st.prevIds ++
      (info.filter fun r => r.phase_type == "train" && r.phase_number == q).map
        (·.block) = (trainRowsUpTo info q).map (·.block) := by
    rw [hI, ← List.map_append, hsplit]
  simp only [h1, h2]
  rw [pmTestFold sat q (trainRowsUpTo info q)
    (info.filter fun r => r.phase_type == "test" && r.phase_number == q) st.metric st.vals]
  rfl

/-- `none` stands for "no phase processed yet". -/
def trainRowsUpToOpt (info : List PhaseRow) : Option ℤ → List PhaseRow
  | none => []
  | some p => trainRowsUpTo info p

theorem pmFold_spec (info : List PhaseRow) (sat : ℤ → ℚ)
    (hs : (info.map (·.phase_number)).Sorted (· ≤ ·)) :
    ∀ (qs : List ℤ) (cut : Option ℤ) (st : PMState),
      st.prevTasks = (trainRowsUpToOpt info cut).map (·.task_name) →
      st.prevIds = (trainRowsUpToOpt info cut).map (·.block) →
      (∀ q ∈ qs, match cut with | none => True | some c => c < q) →
      (∀ r ∈ info,
        (match cut with | none => False | some c => r.phase_number ≤ c) ∨
          r.phase_number ∈ qs) →
      qs.Sorted (· < ·) →
      (qs.foldl (pmPhaseStep info sat) st).vals =
          st.vals ++ ((qs.map (phaseMaintVals info sat)).flatten) ∧
        (qs.foldl (pmPhaseStep info sat) st).metric =
          ((qs.map (phaseMaintEntries info sat)).flatten).foldl
            (fun d kv => dictInsert d kv.1 kv.2) st.metric := by
  intro qs
  induction qs with
  | nil => intro cut st _ _ _ _ _; simp
  | cons q qs' ih =>
    intro cut st hT hI h2 h3 h4
    obtain ⟨hqlt, h4'⟩ := List.sorted_cons.1 h4
    have hsplit : trainRowsUpToOpt info cut ++
        info.filter (fun r => r.phase_type == "train" && r.phase_number == q) =
        trainRowsUpTo info q := by
      cases cut with
      | none =>
        rw [trainRowsUpToOpt, List.nil_append]
        apply trainRows_split_none
        intro r hr hlt
        rcases h3 r hr with hfalse | hmem
        · exact hfalse
        · rcases List.mem_cons.1 hmem with hh | hh
          · omega
          · have := hqlt _ hh
            omega
      | some c =>
        rw [trainRowsUpToOpt]
        apply trainRows_split_some info hs c q (h2 q (by simp))
        intro r hr hlt
        rcases h3 r hr with hle | hmem
        · exact hle
        · rcases List.mem_cons.1 hmem with hh | hh
          · omega
          · have := hqlt _ hh
            omega
    rw [List.foldl_cons,
      pmPhaseStep_spec info sat q st (trainRowsUpToOpt info cut) hT hI hsplit]
    have hstep := ih (some q)
      ⟨(trainRowsUpTo info q).map (·.task_name), (trainRowsUpTo info q).map (·.block),
        (phaseMaintEntries info sat q).foldl (fun d kv => dictInsert d kv.1 kv.2) st.metric,
        st.vals ++ phaseMaintVals info sat q⟩
      rfl rfl (fun q' hq' => hqlt q' hq')
      (fun r hr => by
        rcases h3 r hr with hle | hmem
        · cases cut with
          | none => exact absurd hle (by simp)
          | some c =>
            have := h2 q (by simp)
            exact Or.inl (by omega)
        · rcases List.mem_cons.1 hmem with hh | hh
          · exact Or.inl (by omega)
          · exact Or.inr hh)
      h4'
    obtain ⟨hv, hm⟩ := hstep
    constructor
    · rw [hv]
      simp [List.append_assoc]
    · rw [hm]
      simp only [List.map_cons, List.flatten_cons, List.foldl_append]

theorem perfMaintenanceCalc_phases_mem (info : List PhaseRow) (r : PhaseRow)
    (hr : r ∈ info) :
    r.phase_number ∈ uniqueFirst (info.map (·.phase_number)) :=
  (mem_uniqueFirst _ _).2 (List.mem_map_of_mem _ hr)

/-- C3 (amended): when `phase_info` rows are ordered by nondecreasing
`phase_number`, `PerfMaintenanceANT.calculate` walks the distinct phases
in increasing order and, for each phase's test occurrences whose task was
trained in an earlier phase *or in the current phase's training blocks*
(which are registered before the phase's test blocks are processed),
records `saturation(block of the FIRST such training occurrence) −
saturation(current test block)`; the returned scalar is the mean of all
these differences, in traversal order, and the returned dict holds the
corresponding keyed entries. -/
theorem perfMaintenance_calculate_spec (info : List PhaseRow) (sat : ℤ → ℚ)
    (hs : (info.map (·.phase_number)).Sorted (· ≤ ·)) :
    (perfMaintenanceCalc info sat).1 = pymean (specMaintVals info sat) ∧
      (perfMaintenanceCalc info sat).2 =
        (specMaintEntries info sat).foldl (fun d kv => dictInsert d kv.1 kv.2) [] := by
  have h := pmFold_spec info sat hs (uniqueFirst (info.map (·.phase_number))) none
    ⟨[], [], [], []⟩ rfl rfl (fun q _ => trivial)
    (fun r hr => Or.inr (perfMaintenanceCalc_phases_mem info r hr))
    (uniqueFirst_sorted_lt _ hs)
  obtain ⟨hv, hm⟩ := h
  unfold perfMaintenanceCalc specMaintVals specMaintEntries
  constructor
  · simp only [hv, List.nil_append]
  · simp only [hm]

/-- C3 witness: instance of `perfMaintenance_calculate_spec` on the
2-phase scenario (phase 1 trains `X` with saturation 5, phase 2 tests `X`
with saturation 3), together with the concrete maintenance mean
`5 − 3 = 2`. -/
theorem perfMaintenance_calculate_spec_witness :
    (([(⟨1, "train", "X", 0⟩ : PhaseRow), ⟨2, "test", "X", 1⟩].map
        (·.phase_number)).Sorted (· ≤ ·)) ∧
      ((perfMaintenanceCalc [⟨1, "train", "X", 0⟩, ⟨2, "test", "X", 1⟩]
            (fun b => if b = 0 then (5 : ℚ) else 3)).1 =
          pymean (specMaintVals [⟨1, "train", "X", 0⟩, ⟨2, "test", "X", 1⟩]
            (fun b => if b = 0 then (5 : ℚ) else 3)) ∧
        (perfMaintenanceCalc [⟨1, "train", "X", 0⟩, ⟨2, "test", "X", 1⟩]
            (fun b => if b = 0 then (5 : ℚ) else 3)).2 =
          (specMaintEntries [⟨1, "train", "X", 0⟩, ⟨2, "test", "X", 1⟩]
            (fun b => if b = 0 then (5 : ℚ) else 3)).foldl
              (fun d kv => dictInsert d kv.1 kv.2) []) ∧
      (perfMaintenanceCalc [⟨1, "train", "X", 0⟩, ⟨2, "test", "X", 1⟩]
          (fun b => if b = 0 then (5 : ℚ) else 3)).1 = 2 :=
  ⟨by decide,
    perfMaintenance_calculate_spec [⟨1, "train", "X", 0⟩, ⟨2, "test", "X", 1⟩]
      (fun b => if b = 0 then (5 : ℚ) else 3) (by decide),
    by
      norm_num [perfMaintenanceCalc, pmPhaseStep, pmTestStep, dictInsert, uniqueFirst,
        pymean, List.filter_cons, List.findIdx_cons,
        (by decide : ¬(("test" : String) = "train")),
        (by decide : ¬(("train" : String) = "test"))]⟩


section StrictlyIncreasingSaturation

/-- The source index that position `p` of the reflect-padded series reads
from: the left pad reflects `x[1..w-1]`, the middle is `x` itself, the
right pad reflects `x[n-w..n-2]`. -/
def reflIdx (n w p : ℕ) : ℕ :=
  if p < w - 1 then w - 1 - p
  else if p ≤ n + w - 2 then p - (w - 1)
  else 2 * n + w - 3 - p

theorem reflIdx_lt (n w p : ℕ) (h3 : 3 ≤ w) (hw : w ≤ n)
    (hp : p < n + 2 * w - 2) : reflIdx n w p < n := by
  unfold reflIdx
  by_cases h1 : p < w - 1
  · rw [if_pos h1]
    omega
  · rw [if_neg h1]
    by_cases h2 : p ≤ n + w - 2
    · rw [if_pos h2]
      omega
    · rw [if_neg h2]
      omega

theorem reflectPad_getD (x : List ℚ) (w : ℕ) (h3 : 3 ≤ w) (hw : w ≤ x.length)
    (p : ℕ) (hp : p < x.length + 2 * w - 2) :
    (reflectPad x w).getD p 0 = x.getD (reflIdx x.length w p) 0 := by
  have hn1 : ((x.drop 1).take (w - 1)).reverse.length = w - 1 := by
    simp only [List.length_reverse, List.length_take, List.length_drop]
    omega
  have hn3 : ((x.drop (x.length - w)).take (w - 1)).reverse.length = w - 1 := by
    simp only [List.length_reverse, List.length_take, List.length_drop]
    omega
  unfold reflectPad reflIdx
  by_cases h1 : p < w - 1
  · rw [if_pos h1]
    rw [List.append_assoc, List.getD_append _ _ _ _ (by omega)]
    have hlt : p < ((x.drop 1).take (w - 1)).length := by
      simp only [List.length_take, List.length_drop]
      omega
    rw [List.getD_eq_getElem _ _ (by rw [hn1]; omega), List.getElem_reverse]
    have hidx : ((x.drop 1).take (w - 1)).length - 1 - p < ((x.drop 1).take (w - 1)).length := by
      omega
    rw [List.getElem_take, List.getElem_drop]
    have hidx2 : 1 + (((x.drop 1).take (w - 1)).length - 1 - p) = w - 1 - p := by
      simp only [List.length_take, List.length_drop]
      omega
    rw [List.getD_eq_getElem x 0 (show w - 1 - p < x.length by omega)]
    simp only [hidx2]
  · rw [if_neg h1]
    by_cases h2 : p ≤ x.length + w - 2
    · rw [if_pos h2]
      rw [List.append_assoc, List.getD_append_right _ _ _ _ (by omega)]
      rw [List.getD_append _ _ _ _ (by rw [hn1] at *; omega ; )]
      congr 1
      omega
    · rw [if_neg h2]
      rw [List.append_assoc, List.getD_append_right _ _ _ _ (by omega)]
      rw [List.getD_append_right _ _ _ _ (by rw [hn1]; omega)]
      have hj : p - ((x.drop 1).take (w - 1)).reverse.length - x.length < w - 1 := by
        rw [hn1]
        omega
      rw [List.getD_eq_getElem _ _ (by rw [hn3] at *; omega), List.getElem_reverse]
      rw [List.getElem_take, List.getElem_drop]
      have hidx3 : x.length - w +
          (((x.drop (x.length - w)).take (w - 1)).length - 1 -
            (p - ((x.drop 1).take (w - 1)).reverse.length - x.length)) =
          2 * x.length + w - 3 - p := by
        simp only [List.length_take, List.length_drop, List.length_reverse]
        omega
      rw [List.getD_eq_getElem x 0 (show 2 * x.length + w - 3 - p < x.length by omega)]
      simp only [hidx3]

theorem sum_map_range (n : ℕ) (f : ℕ → ℚ) :
    ((List.range n).map f).sum = ∑ i ∈ Finset.range n, f i := by
  induction n with
  | zero => simp
  | succ m ih =>
    rw [List.range_succ, List.map_append, List.sum_append, Finset.sum_range_succ, ih]
    simp

theorem convolveValid_flat_getD (w : ℕ) (hw : 0 < w) (s : List ℚ)
    (hws : w ≤ s.length) (k : ℕ) (hk : k < s.length + 1 - w) :
    (convolveValid (normalizeKernel (List.replicate w (1 : ℚ))) s).getD k 0 =
      (∑ t ∈ Finset.range w, s.getD (k + t) 0) / w := by
  have hsum : (List.replicate w (1 : ℚ)).sum = w := by
    rw [List.sum_replicate]
    simp
  have hnorm : normalizeKernel (List.replicate w (1 : ℚ)) =
      List.replicate w ((1 : ℚ) / w) := by
    rw [normalizeKernel, hsum, List.map_replicate]
  rw [hnorm]
  have hlen : (convolveValid (List.replicate w ((1 : ℚ) / w)) s).length =
      s.length + 1 - w := by
    rw [convolveValid_length]
    simp
  rw [List.getD_eq_getElem _ 0 (by rw [hlen]; omega)]
  unfold convolveValid
  rw [List.getElem_map, List.getElem_range]
  rw [sum_map_range]
  simp only [List.length_replicate]
  have hterm : ∀ j ∈ Finset.range w,
      (List.replicate w ((1 : ℚ) / w)).getD j 0 * s.getD (k + w - 1 - j) 0 =
        (1 / (w : ℚ)) * s.getD (k + (w - 1 - j)) 0 := by
    intro j hj
    rw [Finset.mem_range] at hj
    rw [List.getD_eq_getElem _ 0 (by simp; omega), List.getElem_replicate]
    congr 2
    omega
  rw [Finset.sum_congr rfl hterm,
    Finset.sum_range_reflect (fun t => (1 / (w : ℚ)) * s.getD (k + t) 0) w,
    ← Finset.mul_sum, one_div, inv_mul_eq_div]

theorem smoothPipeline_flat_getD (taper : String → ℕ → List ℚ) (x : List ℚ)
    (w : ℕ) (h3 : 3 ≤ w) (hw : w ≤ x.length) (i : ℕ) (hi : i < x.length) :
    (smoothPipeline taper x w "flat").getD i 0 =
      (∑ t ∈ Finset.range w,
        x.getD (reflIdx x.length w (i + (w / 2 - 1) + t)) 0) / w := by
  have hs_len : (reflectPad x w).length = x.length + 2 * w - 2 :=
    reflectPad_length x w h3 hw
  have hy_len : (convolveValid (normalizeKernel (List.replicate w (1 : ℚ)))
      (reflectPad x w)).length = x.length + w - 1 := by
    rw [convolveValid_length, normalizeKernel_length, List.length_replicate, hs_len]
    omega
  have htake : i < (((convolveValid (normalizeKernel (List.replicate w (1 : ℚ)))
      (reflectPad x w)).drop (w / 2 - 1)).take
        ((convolveValid (normalizeKernel (List.replicate w (1 : ℚ)))
          (reflectPad x w)).length - (w + 1) / 2 - (w / 2 - 1))).length := by
    simp only [List.length_take, List.length_drop, hy_len]
    omega
  unfold smoothPipeline
  show (List.take ((convolveValid (normalizeKernel (List.replicate w (1 : ℚ)))
      (reflectPad x w)).length - (w + 1) / 2 - (w / 2 - 1))
    (List.drop (w / 2 - 1) (convolveValid (normalizeKernel (List.replicate w (1 : ℚ)))
      (reflectPad x w)))).getD i 0 = _
  rw [List.getD_eq_getElem _ 0 htake, List.getElem_take, List.getElem_drop]
  rw [← List.getD_eq_getElem (convolveValid (normalizeKernel (List.replicate w (1 : ℚ)))
    (reflectPad x w)) 0 (show w / 2 - 1 + i < (convolveValid
      (normalizeKernel (List.replicate w (1 : ℚ))) (reflectPad x w)).length by
    rw [hy_len]; omega)]
  rw [convolveValid_flat_getD w (by omega) (reflectPad x w) (by rw [hs_len]; omega)
    (w / 2 - 1 + i) (by rw [hs_len]; omega)]
  congr 1
  apply Finset.sum_congr rfl
  intro t ht
  rw [Finset.mem_range] at ht
  rw [reflectPad_getD x w h3 hw (w / 2 - 1 + i + t) (by omega)]
  have hix : w / 2 - 1 + i + t = i + (w / 2 - 1) + t := by omega
  rw [hix]

/-- Sum of the flat window read at output offset `j` (before dividing by
the window length). -/
def winSum (x : List ℚ) (w j : ℕ) : ℚ :=
  ∑ t ∈ Finset.range w, x.getD (reflIdx x.length w (j + t)) 0

theorem winSum_step (x : List ℚ) (w : ℕ) (h3 : 3 ≤ w) (hw : w ≤ x.length)
    (hmono : ∀ i j : ℕ, i < j → j < x.length → x.getD i 0 < x.getD j 0)
    (j : ℕ) (hj1 : w - 1 ≤ j) (hj2 : j + 1 ≤ x.length + w / 2 - 2) :
    winSum x w j < winSum x w (j + 1) := by
  have key : winSum x w j + x.getD (reflIdx x.length w (j + w)) 0 =
      winSum x w (j + 1) + x.getD (reflIdx x.length w j) 0 := by
    unfold winSum
    rw [← Finset.sum_range_succ (fun t => x.getD (reflIdx x.length w (j + t)) 0) w]
    rw [Finset.sum_range_succ' (fun t => x.getD (reflIdx x.length w (j + t)) 0) w]
    congr 1
    apply Finset.sum_congr rfl
    intro t _
    have : j + (t + 1) = j + 1 + t := by omega
    rw [this]
  have hrj : reflIdx x.length w j = j - (w - 1) := by
    unfold reflIdx
    rw [if_neg (by omega), if_pos (by omega)]
  have hlt : x.getD (reflIdx x.length w j) 0 < x.getD (reflIdx x.length w (j + w)) 0 := by
    rw [hrj]
    by_cases hcase : j + w ≤ x.length + w - 2
    · have hrjw : reflIdx x.length w (j + w) = j + 1 := by
        unfold reflIdx
        rw [if_neg (by omega), if_pos (by omega)]
        omega
      rw [hrjw]
      exact hmono _ _ (by omega) (by omega)
    · have hrjw : reflIdx x.length w (j + w) = 2 * x.length + w - 3 - (j + w) := by
        unfold reflIdx
        rw [if_neg (by omega), if_neg (by omega)]
      rw [hrjw]
      exact hmono _ _ (by omega) (by omega)
  linarith

theorem winSum_below_top (x : List ℚ) (w : ℕ) (h3 : 3 ≤ w) (hw : w ≤ x.length)
    (hmono : ∀ i j : ℕ, i < j → j < x.length → x.getD i 0 < x.getD j 0) :
    ∀ (d j : ℕ), w - 1 ≤ j → j + d = x.length + w / 2 - 2 → 0 < d →
      winSum x w j < winSum x w (x.length + w / 2 - 2) := by
  intro d
  induction d with
  | zero => intro j _ _ h; omega
  | succ d ih =>
    intro j hj1 hjd _
    have hstep := winSum_step x w h3 hw hmono j hj1 (by omega)
    rcases Nat.eq_zero_or_pos d with hd | hd
    · have hj : j + 1 = x.length + w / 2 - 2 := by omega
      rw [← hj]
      exact hstep
    · exact hstep.trans (ih (j + 1) (by omega) (by omega) hd)

theorem winSum_pad (x : List ℚ) (w : ℕ) (h3 : 3 ≤ w)
    (hbig : w + (w + 1) / 2 < x.length)
    (hmono : ∀ i j : ℕ, i < j → j < x.length → x.getD i 0 < x.getD j 0)
    (j : ℕ) (hj : j < w - 1) :
    winSum x w j < winSum x w (x.length + w / 2 - 2) := by
  have hw : w ≤ x.length := by omega
  apply Finset.sum_lt_sum_of_nonempty (by rw [Finset.nonempty_range_iff]; omega)
  intro t ht
  rw [Finset.mem_range] at ht
  have hsmall : reflIdx x.length w (j + t) ≤ w - 1 := by
    unfold reflIdx
    by_cases h1 : j + t < w - 1
    · rw [if_pos h1]
      omega
    · rw [if_neg h1, if_pos (by omega)]
      omega
  have hlarge : x.length - 1 - (w + 1) / 2 ≤
      reflIdx x.length w (x.length + w / 2 - 2 + t) := by
    unfold reflIdx
    rw [if_neg (by omega)]
    by_cases h2 : x.length + w / 2 - 2 + t ≤ x.length + w - 2
    · rw [if_pos h2]
      omega
    · rw [if_neg h2]
      omega
  have hidx1 : reflIdx x.length w (j + t) < x.length :=
    reflIdx_lt x.length w _ h3 hw (by omega)
  have hidx2 : reflIdx x.length w (x.length + w / 2 - 2 + t) < x.length :=
    reflIdx_lt x.length w _ h3 hw (by omega)
  have hmid : x.getD (w - 1) 0 < x.getD (x.length - 1 - (w + 1) / 2) 0 :=
    hmono _ _ (by omega) (by omega)
  have hle1 : x.getD (reflIdx x.length w (j + t)) 0 ≤ x.getD (w - 1) 0 := by
    rcases Nat.lt_or_ge (reflIdx x.length w (j + t)) (w - 1) with hh | hh
    · exact le_of_lt (hmono _ _ hh (by omega))
    · have he : reflIdx x.length w (j + t) = w - 1 := by omega
      rw [he]
  have hle2 : x.getD (x.length - 1 - (w + 1) / 2) 0 ≤
      x.getD (reflIdx x.length w (x.length + w / 2 - 2 + t)) 0 := by
    rcases Nat.lt_or_ge (x.length - 1 - (w + 1) / 2)
        (reflIdx x.length w (x.length + w / 2 - 2 + t)) with hh | hh
    · exact le_of_lt (hmono _ _ hh hidx2)
    · have he : x.length - 1 - (w + 1) / 2 =
          reflIdx x.length w (x.length + w / 2 - 2 + t) := by omega
      rw [← he]
  exact lt_of_le_of_lt hle1 (lt_of_lt_of_le hmid hle2)

theorem smoothPipeline_flat_strict_max (taper : String → ℕ → List ℚ) (x : List ℚ)
    (w : ℕ) (h3 : 3 ≤ w) (hbig : w + (w + 1) / 2 < x.length)
    (hmono : ∀ i j : ℕ, i < j → j < x.length → x.getD i 0 < x.getD j 0)
    (i : ℕ) (hi : i < x.length - 1) :
    (smoothPipeline taper x w "flat").getD i 0 <
      (smoothPipeline taper x w "flat").getD (x.length - 1) 0 := by
  have hw : w ≤ x.length := by omega
  rw [smoothPipeline_flat_getD taper x w h3 hw i (by omega),
    smoothPipeline_flat_getD taper x w h3 hw (x.length - 1) (by omega)]
  have htop : x.length - 1 + (w / 2 - 1) = x.length + w / 2 - 2 := by omega
  rw [htop]
  rw [div_lt_div_iff_of_pos_right (show (0 : ℚ) < w by exact_mod_cast (by omega : 0 < w))]
  show winSum x w (i + (w / 2 - 1)) < winSum x w (x.length + w / 2 - 2)
  rcases Nat.lt_or_ge (i + (w / 2 - 1)) (w - 1) with hcase | hcase
  · exact winSum_pad x w h3 hbig hmono _ hcase
  · exact winSum_below_top x w h3 hw hmono
      (x.length + w / 2 - 2 - (i + (w / 2 - 1))) (i + (w / 2 - 1)) hcase
      (by omega) (by omega)

end StrictlyIncreasingSaturation

theorem nanmax_eq_last (l : List ℚ) (hne : l ≠ [])
    (hmax : ∀ i, i < l.length - 1 → l.getD i 0 < l.getD (l.length - 1) 0) :
    nanmax l = l.getD (l.length - 1) 0 := by
  have hlen0 : 0 < l.length := List.length_pos.2 hne
  have hlast_le : l.getD (l.length - 1) 0 ≤ nanmax l := by
    apply le_nanmax
    rw [List.getD_eq_getElem _ _ (by omega)]
    exact List.getElem_mem _
  obtain ⟨i, hi, hv⟩ := List.mem_iff_getElem.1 (nanmax_mem l hne)
  rcases Nat.lt_or_ge i (l.length - 1) with hi' | hi'
  · exfalso
    have hlt := hmax i hi'
    rw [List.getD_eq_getElem l 0 hi, hv] at hlt
    exact absurd hlast_le (not_le.2 hlt)
  · have hieq : i = l.length - 1 := by omega
    subst hieq
    rw [← hv, List.getD_eq_getElem l 0 (by omega)]

theorem findIdx_eq_last_max (l : List ℚ) (hne : l ≠ [])
    (hmax : ∀ i, i < l.length - 1 → l.getD i 0 < l.getD (l.length - 1) 0) :
    l.findIdx (fun u => decide (u = nanmax l)) = l.length - 1 := by
  have hlen0 : 0 < l.length := List.length_pos.2 hne
  apply findIdx_eq_of_first _ 0 l (l.length - 1) (by omega)
  · rw [nanmax_eq_last l hne hmax]
    simp
  · intro j hj
    rw [nanmax_eq_last l hne hmax]
    simp only [decide_eq_false_iff_not]
    exact ne_of_lt (hmax j hj)

/-- C5: on a data frame whose (nonempty) per-episode mean series is
strictly increasing, `get_block_saturation_perf` with default prior and
window length returns `episodes_to_saturation` equal to the last index of
the series — the smoothed series attains its maximum first at the final
position — and `episodes_to_recovery` equal to the sentinel
`len(data) + 1`. -/
theorem get_block_saturation_perf_strict_increasing (data : List (ℤ × ℚ))
    (hne : groupMeans data ≠ [])
    (hmono : ∀ i j : ℕ, i < j → j < (groupMeans data).length →
      (groupMeans data).getD i 0 < (groupMeans data).getD j 0) :
    (get_block_saturation_perf data none none).2.1 = (groupMeans data).length - 1 ∧
      (get_block_saturation_perf data none none).2.2 = data.length + 1 := by
  have hlen_sm : (smoothTotal anyTaper (groupMeans data) none "flat").length =
      (groupMeans data).length := smoothTotal_flat_length anyTaper (groupMeans data) none
  have hlen0 : 0 < (groupMeans data).length := List.length_pos.2 hne
  have hmax : ∀ i, i < (smoothTotal anyTaper (groupMeans data) none "flat").length - 1 →
      (smoothTotal anyTaper (groupMeans data) none "flat").getD i 0 <
        (smoothTotal anyTaper (groupMeans data) none "flat").getD
          ((smoothTotal anyTaper (groupMeans data) none "flat").length - 1) 0 := by
    rw [hlen_sm]
    by_cases hcase : resolveWindowLen (groupMeans data).length none < 3
    · have hsm : smoothTotal anyTaper (groupMeans data) none "flat" = groupMeans data := by
        unfold smoothTotal
        rw [if_pos hcase]
      rw [hsm]
      intro i hi
      exact hmono i _ (by omega) (by omega)
    · have hsm : smoothTotal anyTaper (groupMeans data) none "flat" =
          smoothPipeline anyTaper (groupMeans data)
            (resolveWindowLen (groupMeans data).length none) "flat" := by
        unfold smoothTotal
        rw [if_neg hcase]
      have h3 : 3 ≤ resolveWindowLen (groupMeans data).length none := by omega
      have hw5 : resolveWindowLen (groupMeans data).length none ≤
          (groupMeans data).length / 5 := by
        unfold resolveWindowLen intTimesPointTwo
        exact min_le_left _ _
      have hbig : resolveWindowLen (groupMeans data).length none +
          (resolveWindowLen (groupMeans data).length none + 1) / 2 <
            (groupMeans data).length := by omega
      rw [hsm]
      intro i hi
      exact smoothPipeline_flat_strict_max anyTaper (groupMeans data) _ h3 hbig hmono i hi
  have hne_sm : smoothTotal anyTaper (groupMeans data) none "flat" ≠ [] := by
    intro h
    rw [h] at hlen_sm
    simp at hlen_sm
    omega
  constructor
  · show (smoothTotal anyTaper (groupMeans data) none "flat").findIdx
        (fun u => decide (u = nanmax (smoothTotal anyTaper (groupMeans data) none "flat"))) =
      (groupMeans data).length - 1
    rw [findIdx_eq_last_max _ hne_sm hmax, hlen_sm]
  · rfl

/-- C5 witness: instance of `get_block_saturation_perf_strict_increasing`
on a concrete strictly increasing three-episode series. -/
theorem get_block_saturation_perf_strict_increasing_witness :
    (get_block_saturation_perf [((0 : ℤ), (0 : ℚ)), (1, 1), (2, 2)] none none).2.1 =
        (groupMeans [((0 : ℤ), (0 : ℚ)), (1, 1), (2, 2)]).length - 1 ∧
      (get_block_saturation_perf [((0 : ℤ), (0 : ℚ)), (1, 1), (2, 2)] none none).2.2 =
        [((0 : ℤ), (0 : ℚ)), (1, 1), (2, 2)].length + 1 := by
  have hgm : groupMeans [((0 : ℤ), (0 : ℚ)), (1, 1), (2, 2)] = [0, 1, 2] := by
    norm_num [groupMeans, List.insertionSort, List.orderedInsert, List.dedup]
  refine get_block_saturation_perf_strict_increasing _ (by rw [hgm]; simp) ?_
  rw [hgm]
  intro i j hij hj
  simp only [List.length_cons, List.length_nil] at hj
  interval_cases j <;> interval_cases i <;> norm_num
